import Mathlib

/-!
Incremental complex QR factorization: shapes and failure behaviour

A shallow embedding of `liboctave/CmplxQR.cc`.  The class `ComplexQR` holds two
dense matrices `q` and `r`; its constructors fill them from a dense QR kernel and
its update operators validate their arguments, resize `q` and `r`, and hand the
storage to a Fortran kernel of the qrupdate library.

* A dense matrix is its shape together with its element accessor.
* The Fortran kernels (`zgeqrf`, `zungqr`, `zqr1up`, `zqrinc`, `zqrdec`,
  `zqrinr`, `zqrder`, `zqrshc`) are external; they are a parameter of every
  operator.  A kernel receives the arguments of the call and returns the new
  contents of the buffers it was given; it cannot change the shape of a matrix.
* `current_liboctave_error_handler` is modelled by recording the message in the
  outcome of the call; the statements following the call of the handler are
  executed as written in the source.
* `octave_idx_type` is a signed integer: dimensions read from a matrix and
  index arguments are `Int`, and sums and differences of them are exact.
  `insert_col_idx` is `insert_col` with its sums computed in an index type of a
  given number of bits.
-/

namespace CmplxQR

/-- Dense two-dimensional array: `rows`, `cols` and the element accessor `elem`. -/
structure Mat (α : Type) where
  rows : Nat
  cols : Nat
  elem : Nat → Nat → α

namespace Mat

variable {α : Type}

/-- The default-constructed matrix `ComplexMatrix ()`: shape 0×0. -/
def empty [Zero α] : Mat α := ⟨0, 0, fun _ _ => 0⟩

/-- Accessor `columns ()`, a synonym of `cols ()`. -/
def columns (a : Mat α) : Nat := a.cols

/-- Accessor `length ()` of the dense array base class `Array<T>` (declared in
`Array.h`, not among the sources), which a matrix inherits unchanged: the number
of stored elements, the same value as `numel ()`.  A column or row vector is an
array with one column or one row, so for it this is the vector's length; for an
`r`×`c` matrix it is `r * c`. -/
def length (a : Mat α) : Nat := a.rows * a.cols

/-- Predicate `is_square ()`. -/
def is_square (a : Mat α) : Bool := a.rows == a.cols

/-- Modelled from the spec: the dense-matrix primitive `resize (r, c, rfv)`, whose
code is not among the sources ("resizing reallocates storage and must preserve
previously-set elements at their indices when growing, and truncate when
shrinking").  The shape becomes `r`×`c`, elements inside the old shape are kept
and new elements receive the fill value `rfv`.  The requested dimensions are
signed; a matrix has no negative dimension, so a negative request is stored as
0 here.  Every claim stated below about a resized shape is made only where the
requested dimensions are non-negative (`resizeRequests` lists the requests of a
call); the auxiliary lemmas about shapes describe this definition as it is. -/
def resize (a : Mat α) (r c : Int) (rfv : α) : Mat α :=
  { rows := r.toNat
    cols := c.toNat
    elem := fun i j => if i < a.rows ∧ j < a.cols then a.elem i j else rfv }

/-- Modelled from the spec: the dense-matrix primitive `insert (b, r, c)` (code not
among the sources): the block of `a` starting at `(r, c)` is overwritten with `b`. -/
def insert (a b : Mat α) (r c : Nat) : Mat α :=
  { a with
    elem := fun i j =>
      if r ≤ i ∧ i < r + b.rows ∧ c ≤ j ∧ j < c + b.cols then b.elem (i - r) (j - c)
      else a.elem i j }

/-- Assignment `a.elem (i, j) = v`. -/
def set (a : Mat α) (i j : Int) (v : α) : Mat α :=
  { a with elem := fun x y => if x = i.toNat ∧ y = j.toNat then v else a.elem x y }

/-- Read access `a.elem (i, j)` with signed indices. -/
def get (a : Mat α) (i j : Int) : α := a.elem i.toNat j.toNat

/-- Column extraction `a.column (i)`. -/
def column (a : Mat α) (i : Int) : List α :=
  (List.range a.rows).map fun x => a.elem x i.toNat

/-- The matrix after a Fortran kernel has rewritten its buffer through
`fortran_vec ()`: same shape, new contents. -/
def withData (a : Mat α) (d : Nat → Nat → α) : Mat α := { a with elem := d }

end Mat

/-- The messages passed to `current_liboctave_error_handler` in `CmplxQR.cc`. -/
inductive Msg where
  /-- "ComplexQR must have non-empty matrix" -/
  | qr_nonempty
  /-- "QR dimensions mismatch" -/
  | qr_dimensions_mismatch
  /-- "QR update dimensions mismatch" -/
  | qr_update_dimensions_mismatch
  /-- "qrupdate: dimensions mismatch" -/
  | qrupdate_dimensions_mismatch
  /-- "qrinsert: dimensions mismatch" -/
  | qrinsert_dimensions_mismatch
  /-- "qrinsert: index out of range" -/
  | qrinsert_index_out_of_range
  /-- "qrinsert: duplicate index detected" -/
  | qrinsert_duplicate_index
  /-- "qrdelete: dimensions mismatch" -/
  | qrdelete_dimensions_mismatch
  /-- "qrdelete: index out of range" -/
  | qrdelete_index_out_of_range
  /-- "qrshift: index out of range" -/
  | qrshift_index_out_of_range
  deriving DecidableEq, Repr

/-- The failure kinds of the specification. -/
inductive FailureKind where
  | DimensionError
  | IndexOutOfRange
  | DuplicateIndexError
  | ShapeError
  | ShapeMismatch
  deriving DecidableEq, Repr

/-- The failure kind of the specification that a message of the source stands
for: the kind the specification gives to the condition that raises the message.
An empty matrix and a vector or matrix argument of the wrong length are
dimension errors, an index outside its range is an index error, a repeated
index a duplicate-index error, and the constructor's "QR dimensions mismatch"
is the shape mismatch of a directly supplied pair.  "qrdelete: dimensions
mismatch" is raised by the squareness test of `delete_row` and by nothing else,
so it stands for the shape error of a non-square basis.  "qrinsert: dimensions
mismatch" is raised by the length tests of both `insert_col` operators and by
the one test `! q.is_square () || u.length () != n` of `insert_row`, which does
not tell a non-square basis from a row of the wrong length; it is classed as a
dimension error, the kind of its other uses. -/
def Msg.kind : Msg → FailureKind
  | .qr_nonempty => .DimensionError
  | .qr_dimensions_mismatch => .ShapeMismatch
  | .qr_update_dimensions_mismatch => .DimensionError
  | .qrupdate_dimensions_mismatch => .DimensionError
  | .qrinsert_dimensions_mismatch => .DimensionError
  | .qrinsert_index_out_of_range => .IndexOutOfRange
  | .qrinsert_duplicate_index => .DuplicateIndexError
  | .qrdelete_dimensions_mismatch => .ShapeError
  | .qrdelete_index_out_of_range => .IndexOutOfRange
  | .qrshift_index_out_of_range => .IndexOutOfRange

/-- Enumeration `QR::type`. -/
inductive QRType where
  | std
  | raw
  | economy
  deriving DecidableEq, Repr

/-- Contents of a matrix buffer. -/
abbrev Data (α : Type) := Nat → Nat → α

/-- The external Fortran kernels.  Each takes the scalar arguments of the call
in the order of the source, the matrices whose buffers are passed (their leading
dimensions are their row counts) and the vector arguments, and returns the new
contents of the buffers it writes. -/
structure Kernels (α : Type) where
  /-- `zgeqrf (m, n, a, lda, tau, ...)`: new contents of `a`, and `tau`. -/
  zgeqrf : Int → Int → Mat α → Data α × (Nat → α)
  /-- `zungqr (m, n, k, a, lda, tau, ...)`: new contents of `a`. -/
  zungqr : Int → Int → Int → Mat α → (Nat → α) → Data α
  /-- `zqr1up (m, n, k, q, ldq, r, ldr, u, v, ...)`. -/
  zqr1up : Int → Int → Int → Mat α → Mat α → List α → List α → Data α × Data α
  /-- `zqrinc (m, n, k, q, ldq, r, ldr, j, x, ...)`. -/
  zqrinc : Int → Int → Int → Mat α → Mat α → Int → List α → Data α × Data α
  /-- `zqrdec (m, n, k, q, ldq, r, ldr, j, ...)`. -/
  zqrdec : Int → Int → Int → Mat α → Mat α → Int → Data α × Data α
  /-- `zqrinr (m, n, q, ldq, r, ldr, j, x, ...)`. -/
  zqrinr : Int → Int → Mat α → Mat α → Int → List α → Data α × Data α
  /-- `zqrder (m, n, q, ldq, r, ldr, j, ...)`. -/
  zqrder : Int → Int → Mat α → Mat α → Int → Data α × Data α
  /-- `zqrshc (m, n, k, q, ldq, r, ldr, i, j, ...)`. -/
  zqrshc : Int → Int → Int → Mat α → Mat α → Int → Int → Data α × Data α

/-- The members `q` and `r` of class `ComplexQR`. -/
structure ComplexQR (α : Type) where
  q : Mat α
  r : Mat α

/-- What a call leaves behind: the object's members after the call and the
message handed to the error handler, if any. -/
structure Outcome (α : Type) where
  state : ComplexQR α
  failure : Option Msg

/-- A counted loop `for (i = lo; i < hi; i++) s = body (i, s)`. -/
def forLoop {σ : Type} (lo hi : Int) (body : Int → σ → σ) (s : σ) : σ :=
  (List.range (hi - lo).toNat).foldl (fun acc (t : Nat) => body (lo + (t : Int)) acc) s

/-- Element access `js (i)` of an index array. -/
def idx (js : List Int) (i : Int) : Int := js.getD i.toNat 0

/-- Element access `jsi (i)` of a permutation array. -/
def idxN (jsi : List Nat) (i : Int) : Int := (jsi.getD i.toNat 0 : Nat)

/-- Modelled from the spec: `j.sort (jsi, ASCENDING)` of the array class (code not
among the sources): the values in ascending order, each paired with its
position in `j`. -/
def sortAscending (j : List Int) : List (Int × Nat) :=
  List.insertionSort (fun a b => a.1 ≤ b.1) (j.zip (List.range j.length))

/-- Modelled from the spec: `j.sort (jsi, DESCENDING)` of the array class (code not
among the sources): the values in descending order ("processed from highest to
lowest index"), each paired with its position in `j`. -/
def sortDescending (j : List Int) : List (Int × Nat) :=
  List.insertionSort (fun a b => b.1 ≤ a.1) (j.zip (List.range j.length))

/-- The duplicate flag of the batch operators:
`bool dups = false; for (i = 0; i < nj - 1; i++) dups = dups && js(i) == js(i+1);` -/
def dupsFlag (js : List Int) : Bool :=
  let nj : Int := js.length
  forLoop 0 (nj - 1) (fun i dups => dups && (idx js i == idx js (i + 1))) false

namespace ComplexQR

variable {α : Type} [Zero α]

/-- The raw-mode loop of `init`:
`for (j = 0; j < min_mn; j++) { limit = j < min_mn - 1 ? j : min_mn - 1;
  for (i = limit + 1; i < m; i++) A_fact.elem (i, j) *= tau.elem (j); }` -/
def scaleBelowDiagonal [Mul α] (m min_mn : Int) (tau : Nat → α) (A_fact : Mat α) : Mat α :=
  forLoop 0 min_mn (fun j A =>
    let limit := if j < min_mn - 1 then j else min_mn - 1
    forLoop (limit + 1) m (fun i B => B.set i j (B.get i j * tau j.toNat)) A) A_fact

/-- The copy loop of `init`:
`for (j = 0; j < n; j++) { limit = j < min_mn-1 ? j : min_mn-1;
  for (i = 0; i <= limit; i++) r.elem (i, j) = A_fact.elem (i, j); }` -/
def copyUpperTriangle (n min_mn : Int) (A_fact : Mat α) (r : Mat α) : Mat α :=
  forLoop 0 n (fun j R =>
    let limit := if j < min_mn - 1 then j else min_mn - 1
    forLoop 0 (limit + 1) (fun i S => S.set i j (A_fact.get i j)) R) r

/-- Member `init (a, qr_type)`, run on the members `q`, `r` of the object. -/
def init [Mul α] (K : Kernels α) (st : ComplexQR α) (a : Mat α) (qr_type : QRType) :
    Outcome α :=
  let m : Int := a.rows
  let n : Int := a.cols
  if m = 0 ∨ n = 0 then
    ⟨st, some .qr_nonempty⟩
  else
    let min_mn : Int := if m < n then m else n
    let A_fact : Mat α :=
      if m > n ∧ qr_type ≠ .economy then ((Mat.empty : Mat α).resize m m 0).insert a 0 0
      else a
    let f := K.zgeqrf m n A_fact
    let A_fact := A_fact.withData f.1
    let tau := f.2
    if qr_type = .raw then
      let A_fact := scaleBelowDiagonal m min_mn tau A_fact
      let r := A_fact
      let r := if m > n then r.resize m n 0 else r
      ⟨⟨st.q, r⟩, none⟩
    else
      let n2 : Int := if qr_type = .economy then min_mn else m
      let r :=
        if qr_type = .economy ∧ m > n then st.r.resize n n 0 else st.r.resize m n 0
      let r := copyUpperTriangle n min_mn A_fact r
      let A_fact := A_fact.withData (K.zungqr m n2 min_mn A_fact tau)
      let q := A_fact
      let q := q.resize m n2 0
      ⟨⟨q, r⟩, none⟩

/-- Constructor `ComplexQR (a, qr_type)`: members start empty, then `init`. -/
def factorize [Mul α] (K : Kernels α) (a : Mat α) (qr_type : QRType) : Outcome α :=
  init K ⟨Mat.empty, Mat.empty⟩ a qr_type

/-- Constructor `ComplexQR (q_arg, r_arg)`. -/
def ofQR (q_arg r_arg : Mat α) : Outcome α :=
  if q_arg.columns ≠ r_arg.rows then
    ⟨⟨Mat.empty, Mat.empty⟩, some .qr_dimensions_mismatch⟩
  else
    ⟨⟨q_arg, r_arg⟩, none⟩

/-- Operator `update (const ComplexColumnVector& u, const ComplexColumnVector& v)`. -/
def update (K : Kernels α) (st : ComplexQR α) (u v : List α) : Outcome α :=
  let m : Int := st.q.rows
  let n : Int := st.r.columns
  let k : Int := st.q.columns
  if (u.length : Int) = m ∧ (v.length : Int) = n then
    let d := K.zqr1up m n k st.q st.r u v
    ⟨⟨st.q.withData d.1, st.r.withData d.2⟩, none⟩
  else
    ⟨st, some .qr_update_dimensions_mismatch⟩

/-- Operator `update (const ComplexMatrix& u, const ComplexMatrix& v)`. -/
def update_batch (K : Kernels α) (st : ComplexQR α) (u v : Mat α) : Outcome α :=
  let m : Int := st.q.rows
  let n : Int := st.r.columns
  let k : Int := st.q.columns
  if (u.rows : Int) = m ∧ (v.rows : Int) = n ∧ u.cols = v.cols then
    let st1 := forLoop 0 u.cols (fun i (s : ComplexQR α) =>
      let d := K.zqr1up m n k s.q s.r (u.column i) (v.column i)
      ⟨s.q.withData d.1, s.r.withData d.2⟩) st
    ⟨st1, none⟩
  else
    ⟨st, some .qrupdate_dimensions_mismatch⟩

/-- Operator `insert_col (const ComplexColumnVector& u, octave_idx_type j)`, with
exact sums; `insert_col_idx` below computes them in the index type. -/
def insert_col (K : Kernels α) (st : ComplexQR α) (u : List α) (j : Int) : Outcome α :=
  let m : Int := st.q.rows
  let n : Int := st.r.columns
  let k : Int := st.q.columns
  if (u.length : Int) ≠ m then
    ⟨st, some .qrinsert_dimensions_mismatch⟩
  else if j < 0 ∨ j > n then
    ⟨st, some .qrinsert_index_out_of_range⟩
  else
    let st1 : ComplexQR α :=
      if k < m then ⟨st.q.resize m (k + 1) 0, st.r.resize (k + 1) (n + 1) 0⟩
      else ⟨st.q, st.r.resize k (n + 1) 0⟩
    let d := K.zqrinc m n k st1.q st1.r (j + 1) u
    ⟨⟨st1.q.withData d.1, st1.r.withData d.2⟩, none⟩

/-- Operator `insert_col (const ComplexMatrix& u, const Array<octave_idx_type>& j)`. -/
def insert_col_batch (K : Kernels α) (st : ComplexQR α) (u : Mat α) (j : List Int) :
    Outcome α :=
  let m : Int := st.q.rows
  let n : Int := st.r.columns
  let k : Int := st.q.columns
  let sorted := sortAscending j
  let jsi : List Nat := sorted.map Prod.snd
  let js : List Int := sorted.map Prod.fst
  let nj : Int := js.length
  let dups := dupsFlag js
  if dups then
    ⟨st, some .qrinsert_duplicate_index⟩
  else if (u.length : Int) ≠ m ∨ (u.columns : Int) ≠ nj then
    ⟨st, some .qrinsert_dimensions_mismatch⟩
  else if nj > 0 ∧ (idx js 0 < 0 ∨ idx js (nj - 1) > n) then
    ⟨st, some .qrinsert_index_out_of_range⟩
  else if nj > 0 then
    let kmax : Int := min (k + nj) m
    let st1 : ComplexQR α :=
      if k < m then ⟨st.q.resize m kmax 0, st.r.resize kmax (n + nj) 0⟩
      else ⟨st.q, st.r.resize k (n + nj) 0⟩
    let st2 := forLoop 0 js.length (fun i (s : ComplexQR α) =>
      let utmp := u.column (idxN jsi i)
      let d := K.zqrinc m (n + i) (min kmax (k + i)) s.q s.r (idx js i + 1) utmp
      ⟨s.q.withData d.1, s.r.withData d.2⟩) st1
    ⟨st2, none⟩
  else
    ⟨st, none⟩

/-- Operator `delete_col (octave_idx_type j)`. -/
def delete_col (K : Kernels α) (st : ComplexQR α) (j : Int) : Outcome α :=
  let m : Int := st.q.rows
  let k : Int := st.r.rows
  let n : Int := st.r.columns
  if j < 0 ∨ j > n - 1 then
    ⟨st, some .qrdelete_index_out_of_range⟩
  else
    let d := K.zqrdec m n k st.q st.r (j + 1)
    let q := st.q.withData d.1
    let r := st.r.withData d.2
    if k < m then
      ⟨⟨q.resize m (k - 1) 0, r.resize (k - 1) (n - 1) 0⟩, none⟩
    else
      ⟨⟨q, r.resize k (n - 1) 0⟩, none⟩

/-- Operator `delete_col (const Array<octave_idx_type>& j)`. -/
def delete_col_batch (K : Kernels α) (st : ComplexQR α) (j : List Int) : Outcome α :=
  let m : Int := st.q.rows
  let n : Int := st.r.columns
  let k : Int := st.q.columns
  let sorted := sortDescending j
  let js : List Int := sorted.map Prod.fst
  let nj : Int := js.length
  let dups := dupsFlag js
  if dups then
    ⟨st, some .qrinsert_duplicate_index⟩
  else if nj > 0 ∧ (idx js 0 > n - 1 ∨ idx js (nj - 1) < 0) then
    ⟨st, some .qrinsert_index_out_of_range⟩
  else if nj > 0 then
    let st1 := forLoop 0 js.length (fun i (s : ComplexQR α) =>
      let d := K.zqrdec m (n - i) (if k = m then k else k - i) s.q s.r (idx js i + 1)
      ⟨s.q.withData d.1, s.r.withData d.2⟩) st
    if k < m then
      ⟨⟨st1.q.resize m (k - nj) 0, st1.r.resize (k - nj) (n - nj) 0⟩, none⟩
    else
      ⟨⟨st1.q, st1.r.resize k (n - nj) 0⟩, none⟩
  else
    ⟨st, none⟩

/-- Operator `insert_row (const ComplexRowVector& u, octave_idx_type j)`. -/
def insert_row (K : Kernels α) (st : ComplexQR α) (u : List α) (j : Int) : Outcome α :=
  let m : Int := st.r.rows
  let n : Int := st.r.columns
  if ! st.q.is_square ∨ (u.length : Int) ≠ n then
    ⟨st, some .qrinsert_dimensions_mismatch⟩
  else if j < 0 ∨ j > m then
    ⟨st, some .qrinsert_index_out_of_range⟩
  else
    let q := st.q.resize (m + 1) (m + 1) 0
    let r := st.r.resize (m + 1) n 0
    let d := K.zqrinr m n q r (j + 1) u
    ⟨⟨q.withData d.1, r.withData d.2⟩, none⟩

/-- Operator `delete_row (octave_idx_type j)`. -/
def delete_row (K : Kernels α) (st : ComplexQR α) (j : Int) : Outcome α :=
  let m : Int := st.r.rows
  let n : Int := st.r.columns
  if ! st.q.is_square then
    ⟨st, some .qrdelete_dimensions_mismatch⟩
  else if j < 0 ∨ j > m - 1 then
    ⟨st, some .qrdelete_index_out_of_range⟩
  else
    let d := K.zqrder m n st.q st.r (j + 1)
    let q := st.q.withData d.1
    let r := st.r.withData d.2
    ⟨⟨q.resize (m - 1) (m - 1) 0, r.resize (m - 1) n 0⟩, none⟩

/-- Operator `shift_cols (octave_idx_type i, octave_idx_type j)`. -/
def shift_cols (K : Kernels α) (st : ComplexQR α) (i j : Int) : Outcome α :=
  let m : Int := st.q.rows
  let k : Int := st.r.rows
  let n : Int := st.r.columns
  if i < 0 ∨ i > n - 1 ∨ j < 0 ∨ j > n - 1 then
    ⟨st, some .qrshift_index_out_of_range⟩
  else
    let d := K.zqrshc m n k st.q st.r (i + 1) (j + 1)
    ⟨⟨st.q.withData d.1, st.r.withData d.2⟩, none⟩

end ComplexQR

/-- One call of an update operator, with its arguments. -/
inductive Call (α : Type) where
  | update (u v : List α)
  | update_batch (u v : Mat α)
  | insert_col (u : List α) (j : Int)
  | insert_col_batch (u : Mat α) (j : List Int)
  | delete_col (j : Int)
  | delete_col_batch (j : List Int)
  | insert_row (u : List α) (j : Int)
  | delete_row (j : Int)
  | shift_cols (i j : Int)

/-- Execute one call on the factorization state. -/
def ComplexQR.run {α : Type} [Zero α] (K : Kernels α) (st : ComplexQR α) :
    Call α → Outcome α
  | .update u v => st.update K u v
  | .update_batch u v => st.update_batch K u v
  | .insert_col u j => st.insert_col K u j
  | .insert_col_batch u j => st.insert_col_batch K u j
  | .delete_col j => st.delete_col K j
  | .delete_col_batch j => st.delete_col_batch K j
  | .insert_row u j => st.insert_row K u j
  | .delete_row j => st.delete_row K j
  | .shift_cols i j => st.shift_cols K i j

/-- The failure kind reported by a call, if any. -/
def Outcome.kind {α : Type} (o : Outcome α) : Option FailureKind := o.failure.map Msg.kind

/-- Kernels used to evaluate the operators on concrete inputs: every buffer is
returned as it was received and `tau` is 1.  The general statements below hold
for all kernels. -/
def sampleKernels : Kernels Int where
  zgeqrf := fun _ _ a => (a.elem, fun _ => 1)
  zungqr := fun _ _ _ a _ => a.elem
  zqr1up := fun _ _ _ q r _ _ => (q.elem, r.elem)
  zqrinc := fun _ _ _ q r _ _ => (q.elem, r.elem)
  zqrdec := fun _ _ _ q r _ => (q.elem, r.elem)
  zqrinr := fun _ _ q r _ _ => (q.elem, r.elem)
  zqrder := fun _ _ q r _ => (q.elem, r.elem)
  zqrshc := fun _ _ _ q r _ _ => (q.elem, r.elem)

/-- A matrix of shape `r`×`c` given by its rows. -/
def Mat.ofRows (r c : Nat) (l : List (List Int)) : Mat Int :=
  ⟨r, c, fun i j => (l.getD i []).getD j 0⟩

/-- The all-zero integer matrix of shape `r`×`c`. -/
def Mat.zeros (r c : Nat) : Mat Int := ⟨r, c, fun _ _ => 0⟩

/-- Storage of the dense array class `Array<T>` (declared in `Array.h`, not
among the sources): buffers with reference counts.  `data b` is the contents of
buffer `b`, `count b` the number of array objects that share it, and `next` the
first buffer not yet allocated. -/
structure Heap (α : Type) where
  data : Nat → List α
  count : Nat → Nat
  next : Nat

/-- Copy constructor of the array class, as in `ComplexColumnVector utmp = u`: the
new object shares the buffer `b` of the object copied, whose reference count
goes up by one.  Result: the storage and the buffer of the new object. -/
def Heap.copy {α : Type} (h : Heap α) (b : Nat) : Heap α × Nat :=
  ({ h with count := fun i => if i = b then h.count b + 1 else h.count i }, b)

/-- Member `fortran_vec ()` of an array object with buffer `b`: a buffer that is
shared is first replaced, for this object, by a fresh copy of its own
(copy-on-write), then the buffer is handed out for writing.  Result: the
storage and the buffer handed out. -/
def Heap.fortran_vec {α : Type} (h : Heap α) (b : Nat) : Heap α × Nat :=
  if 1 < h.count b then
    ({ data := fun i => if i = h.next then h.data b else h.data i
       count := fun i => if i = h.next then 1 else if i = b then h.count b - 1 else h.count i
       next := h.next + 1 }, h.next)
  else (h, b)

/-- A kernel overwrites the buffer `b` it was handed with `l`. -/
def Heap.write {α : Type} (h : Heap α) (b : Nat) (l : List α) : Heap α :=
  { h with data := fun i => if i = b then l else h.data i }

/-- Operator `update (const ComplexColumnVector& u, const ComplexColumnVector& v)`
with the storage of its vector arguments: `u` and `v` are the buffers of the
caller's vectors in `h`.  The operator declares `utmp = u, vtmp = v` and hands
`utmp.fortran_vec ()` and `vtmp.fortran_vec ()` to `zqr1up`, which reads them
and overwrites them; `w` gives what it leaves in the two vector buffers.  The
members `q` and `r` are treated as in `update`.  Result: the outcome of the call
and the storage after it. -/
def ComplexQR.update_mem {α : Type} [Zero α] (K : Kernels α)
    (w : Int → Int → Int → Mat α → Mat α → List α → List α → List α × List α)
    (st : ComplexQR α) (h : Heap α) (u v : Nat) : Outcome α × Heap α :=
  let m : Int := st.q.rows
  let n : Int := st.r.columns
  let k : Int := st.q.columns
  if ((h.data u).length : Int) = m ∧ ((h.data v).length : Int) = n then
    let utmp := h.copy u
    let vtmp := utmp.1.copy v
    let pu := vtmp.1.fortran_vec utmp.2
    let pv := pu.1.fortran_vec vtmp.2
    let d := K.zqr1up m n k st.q st.r (pv.1.data pu.2) (pv.1.data pv.2)
    let x := w m n k st.q st.r (pv.1.data pu.2) (pv.1.data pv.2)
    (⟨⟨st.q.withData d.1, st.r.withData d.2⟩, none⟩, (pv.1.write pu.2 x.1).write pv.2 x.2)
  else
    (⟨st, some .qr_update_dimensions_mismatch⟩, h)

/-- The batch form of the rank-1 update in the words of the specification: the
single `update` applied to the column pairs `(u(:,i), v(:,i))` for
i = 0, 1, ..., p − 1 in this order, each to the state left by the one before. -/
def ComplexQR.update_seq {α : Type} [Zero α] (K : Kernels α) (st : ComplexQR α)
    (u v : Mat α) (p : Nat) : ComplexQR α :=
  (List.range p).foldl
    (fun s (i : Nat) => (s.update K (u.column (i : Int)) (v.column (i : Int))).state) st

/-- The work array `A_fact` of `init` as it is handed to `zgeqrf`: `a` itself, or,
when m > n and the mode is not economy, the m×m array holding `a` in its first
n columns. -/
def ComplexQR.workArray {α : Type} [Zero α] (a : Mat α) (qr_type : QRType) : Mat α :=
  if (a.rows : Int) > (a.cols : Int) ∧ qr_type ≠ .economy then
    ((Mat.empty : Mat α).resize a.rows a.rows 0).insert a 0 0
  else a

/-- Kernels for evaluating raw mode on concrete inputs: as `sampleKernels`, but
`zgeqrf` returns tau(j) = j + 2, which makes the scaling of `init` visible. -/
def tauKernels : Kernels Int :=
  { sampleKernels with zgeqrf := fun _ _ a => (a.elem, fun j => (j : Int) + 2) }

/-- The index lists of a call are pairwise distinct (calls without an index list
qualify). -/
def Call.distinctIndices {α : Type} : Call α → Bool
  | .insert_col_batch _ j => decide j.Nodup
  | .delete_col_batch j => decide j.Nodup
  | _ => true

/-- The dimension arguments of the `resize` calls executed by a call of an update
operator: none when the call reports a failure or takes a branch without
`resize`, otherwise the arguments of `q.resize` followed by those of `r.resize`
(of `r.resize` alone where only R is resized), with `nj` the number of indices
of a batch. -/
def ComplexQR.resizeRequests {α : Type} [Zero α] (K : Kernels α) (st : ComplexQR α)
    (c : Call α) : List Int :=
  if (st.run K c).failure ≠ none then []
  else
    match c with
    | .update _ _ => []
    | .update_batch _ _ => []
    | .shift_cols _ _ => []
    | .insert_col _ _ =>
      let m : Int := st.q.rows
      let n : Int := st.r.columns
      let k : Int := st.q.columns
      if k < m then [m, k + 1, k + 1, n + 1] else [k, n + 1]
    | .insert_col_batch _ j =>
      let m : Int := st.q.rows
      let n : Int := st.r.columns
      let k : Int := st.q.columns
      let nj : Int := j.length
      let kmax : Int := min (k + nj) m
      if nj > 0 then (if k < m then [m, kmax, kmax, n + nj] else [k, n + nj]) else []
    | .delete_col _ =>
      let m : Int := st.q.rows
      let k : Int := st.r.rows
      let n : Int := st.r.columns
      if k < m then [m, k - 1, k - 1, n - 1] else [k, n - 1]
    | .delete_col_batch j =>
      let m : Int := st.q.rows
      let n : Int := st.r.columns
      let k : Int := st.q.columns
      let nj : Int := j.length
      if nj > 0 then (if k < m then [m, k - nj, k - nj, n - nj] else [k, n - nj]) else []
    | .insert_row _ _ =>
      let m : Int := st.r.rows
      let n : Int := st.r.columns
      [m + 1, m + 1, m + 1, n]
    | .delete_row _ =>
      let m : Int := st.r.rows
      let n : Int := st.r.columns
      [m - 1, m - 1, m - 1, n]

/-- A call succeeds: it reports no failure and asks `resize` for no negative
dimension. -/
def ComplexQR.succeeds {α : Type} [Zero α] (K : Kernels α) (st : ComplexQR α)
    (c : Call α) : Bool :=
  (st.run K c).failure.isNone && (st.resizeRequests K c).all (fun d => decide (0 ≤ d))

/-- The state reached by a finite sequence of calls, each applied to the state
left by the one before; `none` as soon as a call does not succeed. -/
def ComplexQR.runOps {α : Type} [Zero α] (K : Kernels α) :
    ComplexQR α → List (Call α) → Option (ComplexQR α)
  | st, [] => some st
  | st, c :: cs => if st.succeeds K c then runOps K (st.run K c).state cs else none

end CmplxQR

/-! Escaping of a character in a text string, `escape_character` of
`libinterp/corefcn/gl2ps-print.cc`.  A `std::string` is a list of characters and
`std::string::npos` is `none`. -/

namespace Gl2ps

/-- The backslash character, the content of the string literal inserted by
`escape_character`. -/
def backslash : Char := Char.ofNat 92

/-- Search of `chr` in the tail `s` of a string, `s` beginning at index `i` of the
string: the least index at which `chr` occurs, `none` if there is none. -/
def findFrom (chr : List Char) : List Char → Nat → Option Nat
  | [], i => if chr.isPrefixOf [] then some i else none
  | c :: s, i => if chr.isPrefixOf (c :: s) then some i else findFrom chr s (i + 1)

/-- Member `str.find (chr, pos)` of `std::string` (C++ standard library): the least
index `i ≥ pos` at which `chr` occurs in `str`, `npos` if there is none or if
`pos` lies beyond the end of `str`. -/
def find (chr str : List Char) (pos : Nat) : Option Nat :=
  if pos ≤ str.length then findFrom chr (str.drop pos) pos else none

/-- Member `str.insert (idx, s)` of `std::string` (C++ standard library), for
`idx ≤ str.size ()`: `s` is inserted before the character at index `idx`. -/
def insert (str : List Char) (idx : Nat) (s : List Char) : List Char :=
  str.take idx ++ s ++ str.drop idx

/-- The loop of `escape_character`,
`while (idx != std::string::npos) { str.insert (idx, "\\"); idx = str.find (chr, idx + 2); }`,
run for at most `fuel` iterations from the current `idx` and `str`; the result
is the final `str`, or `none` when the loop has not ended within `fuel`
iterations. -/
def escapeLoop (chr : List Char) : Nat → Option Nat → List Char → Option (List Char)
  | _, none, str => some str
  | 0, some _, _ => none
  | fuel + 1, some idx, str =>
    escapeLoop chr fuel (find chr (insert str idx [backslash]) (idx + 2))
      (insert str idx [backslash])

/-- Function `escape_character (chr, str)`: `idx = str.find (chr)`, then the loop.
The result is the value of `str` on return. -/
def escape_character (fuel : Nat) (chr str : List Char) : Option (List Char) :=
  escapeLoop chr fuel (find chr str 0) str

/-- The string with one backslash inserted immediately before each occurrence of
the character `c` (the words of the claim about `escape_character`). -/
def escaped (c : Char) : List Char → List Char
  | [] => []
  | x :: s => if x = c then backslash :: x :: escaped c s else x :: escaped c s

end Gl2ps

namespace CmplxQR

/-! ## Failure leaves the state untouched -/

open ComplexQR

/-- C1: whenever a call of an update operator (single or batch update, single or
batch insert_col, single or batch delete_col, insert_row, delete_row, shift_cols)
reports a failure, the members Q and R after the call are equal to the members
before the call, in shape and in every element. -/
theorem failure_leaves_state_unchanged {α : Type} [Zero α] (K : Kernels α)
    (st : ComplexQR α) (c : Call α) (h : (st.run K c).failure ≠ none) :
    (st.run K c).state = st := by
  cases c <;>
    simp only [ComplexQR.run, update, update_batch, insert_col, insert_col_batch, delete_col,
      delete_col_batch, insert_row, delete_row, shift_cols] at h ⊢ <;>
    split_ifs at h ⊢ <;> first | rfl | exact absurd rfl h

theorem failure_leaves_state_unchanged_witness :
    ((⟨Mat.zeros 3 3, Mat.zeros 3 3⟩ : ComplexQR Int).run sampleKernels (.delete_col 5)).failure ≠ none ∧
    ((⟨Mat.zeros 3 3, Mat.zeros 3 3⟩ : ComplexQR Int).run sampleKernels (.delete_col 5)).state
      = ⟨Mat.zeros 3 3, Mat.zeros 3 3⟩ :=
  ⟨by decide, failure_leaves_state_unchanged sampleKernels _ _ (by decide)⟩

/-! ## Duplicate indices in the batch operators -/

/-- C2: batch insert_col evaluated at positions [2,2].  On a 3×3 factorization
with a 3×2 matrix U the call reports "qrinsert: dimensions mismatch" (a
DimensionError, not a DuplicateIndexError); on a factorization with no rows
(Q 0×0, R 0×2, U 0×2) the same positions are accepted without any failure and R
grows to four columns. -/
theorem insert_col_batch_duplicate_positions :
    ((⟨Mat.zeros 3 3, Mat.zeros 3 3⟩ : ComplexQR Int).insert_col_batch sampleKernels
        (Mat.zeros 3 2) [2, 2]).failure = some .qrinsert_dimensions_mismatch ∧
    ((⟨Mat.zeros 3 3, Mat.zeros 3 3⟩ : ComplexQR Int).insert_col_batch sampleKernels
        (Mat.zeros 3 2) [2, 2]).kind ≠ some .DuplicateIndexError ∧
    ((⟨Mat.zeros 0 0, Mat.zeros 0 2⟩ : ComplexQR Int).insert_col_batch sampleKernels
        (Mat.zeros 0 2) [2, 2]).failure = none ∧
    ((⟨Mat.zeros 0 0, Mat.zeros 0 2⟩ : ComplexQR Int).insert_col_batch sampleKernels
        (Mat.zeros 0 2) [2, 2]).state.r.cols = 4 := by
  refine ⟨?_, ?_, ?_, ?_⟩ <;> decide

/-- C3: batch delete_col evaluated at indices [1,1] on a 3×3 factorization: no
failure is reported, the deletion kernel runs twice and R is cut from three
columns to one. -/
theorem delete_col_batch_duplicate_indices :
    ((⟨Mat.zeros 3 3, Mat.zeros 3 3⟩ : ComplexQR Int).delete_col_batch sampleKernels
        [1, 1]).failure = none ∧
    ((⟨Mat.zeros 3 3, Mat.zeros 3 3⟩ : ComplexQR Int).delete_col_batch sampleKernels
        [1, 1]).state.r.cols = 1 ∧
    ((⟨Mat.zeros 3 3, Mat.zeros 3 3⟩ : ComplexQR Int).delete_col_batch sampleKernels
        [1, 1]).state.r ≠ Mat.zeros 3 3 := by
  refine ⟨?_, ?_, ?_⟩
  · decide
  · decide
  · intro h
    have := congrArg Mat.cols h
    revert this
    decide

/-! ## Single column operators -/

/-- C4: single delete_col(j) on a state whose R has n columns reports
IndexOutOfRange exactly when j < 0 or j > n − 1, reports no other failure, always
fails when n = 0, and leaves Q and R as they were when it fails. -/
theorem delete_col_index_check {α : Type} [Zero α] (K : Kernels α) (st : ComplexQR α)
    (j : Int) :
    ((st.delete_col K j).kind = some .IndexOutOfRange ↔ (j < 0 ∨ j > (st.r.cols : Int) - 1)) ∧
    ((st.delete_col K j).failure ≠ none ↔ (j < 0 ∨ j > (st.r.cols : Int) - 1)) ∧
    (st.r.cols = 0 → (st.delete_col K j).kind = some .IndexOutOfRange) ∧
    ((st.delete_col K j).failure ≠ none → (st.delete_col K j).state = st) := by
  have hn : (0 : Int) ≤ (st.r.cols : Int) := Int.ofNat_nonneg _
  simp only [delete_col, Outcome.kind, Mat.columns]
  refine ⟨?_, ?_, ?_, ?_⟩
  · split_ifs with h1 h2 <;> simp_all [Msg.kind]
  · split_ifs with h1 h2 <;> simp_all
  · intro h0
    have hj : j < 0 ∨ j > (st.r.cols : Int) - 1 := by
      rw [h0]; simp only [Nat.cast_zero]; omega
    rw [if_pos hj]; rfl
  · split_ifs with h1 h2 <;> simp_all

theorem delete_col_index_check_witness :
    ((⟨Mat.zeros 3 0, Mat.zeros 0 0⟩ : ComplexQR Int).delete_col sampleKernels 0).kind
      = some .IndexOutOfRange :=
  (delete_col_index_check sampleKernels ⟨Mat.zeros 3 0, Mat.zeros 0 0⟩ 0).2.2.1 rfl

/-- C5: single insert_col(u, j) on a state with Q of m rows and R of n columns
reports DimensionError when length(u) ≠ m, reports IndexOutOfRange when
length(u) = m and (j < 0 or j > n), and succeeds in every other case; j = n is
accepted. -/
theorem insert_col_checks {α : Type} [Zero α] (K : Kernels α) (st : ComplexQR α)
    (u : List α) (j : Int) :
    (u.length ≠ st.q.rows → (st.insert_col K u j).kind = some .DimensionError) ∧
    (u.length = st.q.rows → (j < 0 ∨ j > (st.r.cols : Int)) →
      (st.insert_col K u j).kind = some .IndexOutOfRange) ∧
    (u.length = st.q.rows → 0 ≤ j → j ≤ (st.r.cols : Int) →
      (st.insert_col K u j).failure = none) ∧
    (u.length = st.q.rows → (st.insert_col K u (st.r.cols : Int)).failure = none) := by
  have hn : (0 : Int) ≤ (st.r.cols : Int) := Int.ofNat_nonneg _
  simp only [insert_col, Outcome.kind, Mat.columns, ne_eq, Nat.cast_inj]
  refine ⟨?_, ?_, ?_, ?_⟩
  · intro h; rw [if_pos h]; rfl
  · intro h hj; rw [if_neg (not_not.mpr h), if_pos hj]; rfl
  · intro h h0 h1
    rw [if_neg (not_not.mpr h), if_neg (by omega)]
  · intro h
    rw [if_neg (not_not.mpr h), if_neg (by omega)]

theorem insert_col_checks_witness :
    ((⟨Mat.zeros 3 2, Mat.zeros 2 2⟩ : ComplexQR Int).insert_col sampleKernels [1, 2, 3]
      2).failure = none :=
  (insert_col_checks sampleKernels ⟨Mat.zeros 3 2, Mat.zeros 2 2⟩ [1, 2, 3] 2).2.2.1
    rfl (by decide) (by decide)

/-- C7, as stated, fails in both of its cases.  With k < m (Q 3×2, R 2×2) a
successful delete_col(0) changes the shape of Q, to 3×1; with k = m (Q 2×2,
R 2×2) a successful delete_col(0) leaves Q at 2×2 and R keeps its two rows. -/
theorem delete_col_shapes_as_stated_fail :
    (((⟨Mat.zeros 3 2, Mat.zeros 2 2⟩ : ComplexQR Int).delete_col sampleKernels 0).failure
        = none ∧
      ((⟨Mat.zeros 3 2, Mat.zeros 2 2⟩ : ComplexQR Int).delete_col sampleKernels 0).state.q.cols
        ≠ 2) ∧
    (((⟨Mat.zeros 2 2, Mat.zeros 2 2⟩ : ComplexQR Int).delete_col sampleKernels 0).failure
        = none ∧
      ((⟨Mat.zeros 2 2, Mat.zeros 2 2⟩ : ComplexQR Int).delete_col sampleKernels 0).state.q.rows
        = 2 ∧
      ((⟨Mat.zeros 2 2, Mat.zeros 2 2⟩ : ComplexQR Int).delete_col sampleKernels 0).state.q.cols
        = 2 ∧
      ((⟨Mat.zeros 2 2, Mat.zeros 2 2⟩ : ComplexQR Int).delete_col sampleKernels 0).state.r.rows
        = 2) := by
  refine ⟨⟨?_, ?_⟩, ?_, ?_, ?_, ?_⟩ <;> decide

/-- C7, amended: a successful single delete_col(j) on a state with Q of shape m×k
and R of shape k×n yields, when 1 ≤ k < m, Q of shape m×(k−1) and R of shape
(k−1)×(n−1) (both shrink), and when k = m, Q of unchanged shape and R of shape
k×(n−1) (only R shrinks). -/
theorem delete_col_shapes {α : Type} [Zero α] (K : Kernels α) (st : ComplexQR α)
    (j : Int) (hk : st.r.rows = st.q.cols)
    (hok : (st.delete_col K j).failure = none) :
    (1 ≤ st.q.cols → st.q.cols < st.q.rows →
      (st.delete_col K j).state.q.rows = st.q.rows ∧
      (st.delete_col K j).state.q.cols + 1 = st.q.cols ∧
      (st.delete_col K j).state.r.rows + 1 = st.q.cols ∧
      (st.delete_col K j).state.r.cols + 1 = st.r.cols) ∧
    (st.q.cols = st.q.rows →
      (st.delete_col K j).state.q.rows = st.q.rows ∧
      (st.delete_col K j).state.q.cols = st.q.cols ∧
      (st.delete_col K j).state.r.rows = st.q.cols ∧
      (st.delete_col K j).state.r.cols + 1 = st.r.cols) := by
  simp only [delete_col, Mat.columns] at hok ⊢
  split_ifs at hok ⊢ with h1 h2
  · refine ⟨fun _ _ => ?_, fun h => ?_⟩
    · simp only [Mat.withData, Mat.resize]
      refine ⟨?_, ?_, ?_, ?_⟩ <;> first | trivial | omega
    · omega
  · refine ⟨fun _ h => ?_, fun h => ?_⟩
    · omega
    · simp only [Mat.withData, Mat.resize]
      refine ⟨?_, ?_, ?_, ?_⟩ <;> first | trivial | omega

theorem delete_col_shapes_witness :
    ((⟨Mat.zeros 3 2, Mat.zeros 2 2⟩ : ComplexQR Int).delete_col sampleKernels 0).state.q.rows
      = 3 ∧
    ((⟨Mat.zeros 3 2, Mat.zeros 2 2⟩ : ComplexQR Int).delete_col sampleKernels 0).state.q.cols
      + 1 = 2 ∧
    ((⟨Mat.zeros 3 2, Mat.zeros 2 2⟩ : ComplexQR Int).delete_col sampleKernels 0).state.r.rows
      + 1 = 2 ∧
    ((⟨Mat.zeros 3 2, Mat.zeros 2 2⟩ : ComplexQR Int).delete_col sampleKernels 0).state.r.cols
      + 1 = 2 :=
  (delete_col_shapes sampleKernels ⟨Mat.zeros 3 2, Mat.zeros 2 2⟩ 0 rfl (by decide)).1
    (by decide) (by decide)

/-! ## Factorization followed by a column deletion -/

/-- Loop invariant rule for `forLoop`. -/
theorem forLoop_invariant {σ : Type} (P : σ → Prop) (lo hi : Int) (body : Int → σ → σ)
    (s : σ) (h0 : P s) (hstep : ∀ i t, P t → P (body i t)) : P (forLoop lo hi body s) := by
  unfold forLoop
  generalize List.range (hi - lo).toNat = l
  induction l generalizing s with
  | nil => exact h0
  | cons x xs ih => exact ih _ (hstep _ _ h0)

/-- The copy loop of `init` keeps the shape of `r`. -/
theorem copyUpperTriangle_shape {α : Type} (n min_mn : Int) (A r : Mat α) :
    (copyUpperTriangle n min_mn A r).rows = r.rows ∧
    (copyUpperTriangle n min_mn A r).cols = r.cols := by
  unfold copyUpperTriangle
  refine forLoop_invariant (fun R : Mat α => R.rows = r.rows ∧ R.cols = r.cols) _ _ _ _
    ⟨rfl, rfl⟩ ?_
  intro jj R hR
  refine forLoop_invariant (fun S : Mat α => S.rows = r.rows ∧ S.cols = r.cols) _ _ _ _ hR ?_
  intro ii S hS
  exact hS

/-- Shapes produced by `factorize` in a mode that forms Q (std or economy), for a
non-empty matrix: no failure, Q has the rows of `a`, and the other dimensions
are those chosen by the branches of `init`. -/
theorem factorize_shapes {α : Type} [Zero α] [Mul α] (K : Kernels α) (a : Mat α)
    (t : QRType) (hm : 1 ≤ a.rows) (hn : 1 ≤ a.cols) (ht : t ≠ .raw) :
    (factorize K a t).failure = none ∧
    (factorize K a t).state.q.rows = a.rows ∧
    (factorize K a t).state.q.cols =
      (if t = .economy then (if a.rows < a.cols then a.rows else a.cols) else a.rows) ∧
    (factorize K a t).state.r.rows =
      (if t = .economy ∧ a.cols < a.rows then a.cols else a.rows) ∧
    (factorize K a t).state.r.cols = a.cols := by
  have h1 : ¬ ((a.rows : Int) = 0 ∨ (a.cols : Int) = 0) := by omega
  simp only [factorize, init, if_neg h1, if_neg ht]
  refine ⟨trivial, ?_, ?_, ?_, ?_⟩
  · simp [Mat.resize]
  · by_cases he : t = .economy
    · by_cases hlt : a.rows < a.cols
      · have : (a.rows : Int) < a.cols := by exact_mod_cast hlt
        simp [Mat.resize, he, hlt, this]
      · have : ¬ (a.rows : Int) < a.cols := by exact_mod_cast hlt
        simp [Mat.resize, he, hlt, this]
    · simp [Mat.resize, he]
  · rw [(copyUpperTriangle_shape _ _ _ _).1]
    by_cases hc : t = .economy ∧ a.cols < a.rows
    · have : (a.rows : Int) > a.cols := by exact_mod_cast hc.2
      simp [Mat.resize, hc.1, hc.2, this]
    · have hc2 : ¬ (t = .economy ∧ (a.rows : Int) > a.cols) := by
        intro h; exact hc ⟨h.1, by exact_mod_cast h.2⟩
      rw [if_neg hc2, if_neg hc]; simp [Mat.resize]
  · rw [(copyUpperTriangle_shape _ _ _ _).2]
    split_ifs <;> simp [Mat.resize]

/-- C8: for an m×n matrix with m > n ≥ 1, factorize in economy mode succeeds with
Q of shape m×n and R of shape n×n, and a following delete_col(j) with
0 ≤ j ≤ n−1 succeeds with Q of shape m×(n−1) and R of shape (n−1)×(n−1). -/
theorem factorize_economy_delete_col {α : Type} [Zero α] [Mul α] (K : Kernels α)
    (a : Mat α) (j : Int) (hn : 1 ≤ a.cols) (hmn : a.cols < a.rows)
    (hj0 : 0 ≤ j) (hj : j ≤ (a.cols : Int) - 1) :
    (factorize K a .economy).failure = none ∧
    (factorize K a .economy).state.q.rows = a.rows ∧
    (factorize K a .economy).state.q.cols = a.cols ∧
    (factorize K a .economy).state.r.rows = a.cols ∧
    (factorize K a .economy).state.r.cols = a.cols ∧
    ((factorize K a .economy).state.delete_col K j).failure = none ∧
    ((factorize K a .economy).state.delete_col K j).state.q.rows = a.rows ∧
    ((factorize K a .economy).state.delete_col K j).state.q.cols = a.cols - 1 ∧
    ((factorize K a .economy).state.delete_col K j).state.r.rows = a.cols - 1 ∧
    ((factorize K a .economy).state.delete_col K j).state.r.cols = a.cols - 1 := by
  obtain ⟨hf, hqr, hqc, hrr, hrc⟩ :=
    factorize_shapes K a .economy (by omega) hn (by decide)
  have hlt : ¬ a.rows < a.cols := by omega
  simp only [if_true, if_neg hlt, true_and, if_pos hmn] at hqc hrr
  refine ⟨hf, hqr, hqc, hrr, hrc, ?_⟩
  generalize (factorize K a .economy).state = F at hqr hqc hrr hrc
  have hidx : ¬ (j < 0 ∨ j > ((F.r.cols : Nat) : Int) - 1) := by rw [hrc]; omega
  have hkm : ((F.r.rows : Nat) : Int) < (F.q.rows : Nat) := by rw [hrr, hqr]; exact_mod_cast hmn
  simp only [delete_col, Mat.columns, if_neg hidx, if_pos hkm, Mat.resize, Mat.withData]
  refine ⟨trivial, ?_, ?_, ?_, ?_⟩ <;> omega

theorem factorize_economy_delete_col_witness :
    (factorize sampleKernels (Mat.ofRows 3 2 [[1, 0], [0, 1], [1, 1]]) .economy).state.q.rows = 3 ∧
    (factorize sampleKernels (Mat.ofRows 3 2 [[1, 0], [0, 1], [1, 1]]) .economy).state.q.cols = 2 ∧
    (factorize sampleKernels (Mat.ofRows 3 2 [[1, 0], [0, 1], [1, 1]]) .economy).state.r.rows = 2 ∧
    (factorize sampleKernels (Mat.ofRows 3 2 [[1, 0], [0, 1], [1, 1]]) .economy).state.r.cols = 2 ∧
    ((factorize sampleKernels (Mat.ofRows 3 2 [[1, 0], [0, 1], [1, 1]])
      .economy).state.delete_col sampleKernels 0).state.q.rows = 3 ∧
    ((factorize sampleKernels (Mat.ofRows 3 2 [[1, 0], [0, 1], [1, 1]])
      .economy).state.delete_col sampleKernels 0).state.q.cols = 1 ∧
    ((factorize sampleKernels (Mat.ofRows 3 2 [[1, 0], [0, 1], [1, 1]])
      .economy).state.delete_col sampleKernels 0).state.r.rows = 1 ∧
    ((factorize sampleKernels (Mat.ofRows 3 2 [[1, 0], [0, 1], [1, 1]])
      .economy).state.delete_col sampleKernels 0).state.r.cols = 1 :=
  have h := factorize_economy_delete_col sampleKernels
    (Mat.ofRows 3 2 [[1, 0], [0, 1], [1, 1]]) 0 (by decide) (by decide) (by decide) (by decide)
  ⟨h.2.1, h.2.2.1, h.2.2.2.1, h.2.2.2.2.1, h.2.2.2.2.2.2.1, h.2.2.2.2.2.2.2.1,
    h.2.2.2.2.2.2.2.2.1, h.2.2.2.2.2.2.2.2.2⟩

/-! ## Row operators -/

/-- C9, as stated, fails for insert_row: on the non-square state Q 3×2, R 2×2,
insert_row with a row of the correct length 2 and the in-range index 0 reports
"qrinsert: dimensions mismatch", the very report it gives on a square state
(Q 2×2, R 2×2) for a row of the wrong length 1; the reported kind is the
DimensionError of that case, not a ShapeError. -/
theorem insert_row_nonsquare_reports_dimension_error :
    ((⟨Mat.zeros 3 2, Mat.zeros 2 2⟩ : ComplexQR Int).insert_row sampleKernels [7, 8] 0).failure
      = ((⟨Mat.zeros 2 2, Mat.zeros 2 2⟩ : ComplexQR Int).insert_row sampleKernels [7] 0).failure ∧
    ((⟨Mat.zeros 3 2, Mat.zeros 2 2⟩ : ComplexQR Int).insert_row sampleKernels [7, 8] 0).failure
      = some .qrinsert_dimensions_mismatch ∧
    ((⟨Mat.zeros 3 2, Mat.zeros 2 2⟩ : ComplexQR Int).insert_row sampleKernels [7, 8] 0).kind
      = some .DimensionError ∧
    ((⟨Mat.zeros 3 2, Mat.zeros 2 2⟩ : ComplexQR Int).insert_row sampleKernels [7, 8] 0).kind
      ≠ some .ShapeError := by
  refine ⟨?_, ?_, ?_, ?_⟩ <;> decide

/-- The message "qrdelete: dimensions mismatch" is reported by delete_row exactly
when Q is not square, whatever the index. -/
theorem delete_row_shape_message_iff {α : Type} [Zero α] (K : Kernels α) (st : ComplexQR α)
    (j : Int) :
    (st.delete_row K j).failure = some .qrdelete_dimensions_mismatch ↔
      st.q.cols ≠ st.q.rows := by
  by_cases hsq : st.q.rows = st.q.cols
  · have h : st.q.is_square = true := by
      simp only [Mat.is_square, beq_iff_eq]; exact hsq
    simp only [delete_row, h, Bool.not_true, Bool.false_eq_true, if_false]
    constructor
    · intro hf
      split_ifs at hf
      simp at hf
    · intro hne; exact absurd hsq.symm hne
  · have h : st.q.is_square = false := by
      simp only [Mat.is_square, beq_eq_false_iff_ne, ne_eq]; exact hsq
    simp only [delete_row, h, Bool.not_false, if_true, true_iff]
    exact fun e => hsq e.symm

/-- C9, amended: when Q is not square, insert_row(u, j) and delete_row(j) fail for
every u and every j, the squareness test coming before the index test, and Q
and R are left unchanged.  delete_row reports ShapeError, through a message
raised by the squareness test alone.  insert_row reports the failure it reports
on any state for a row of the wrong length, one test and one message serving
both conditions: its kind is DimensionError, not ShapeError.  Neither reports
IndexOutOfRange. -/
theorem row_ops_nonsquare_fail {α : Type} [Zero α] (K : Kernels α) (st : ComplexQR α)
    (u : List α) (j : Int) (hsq : st.q.cols ≠ st.q.rows) :
    (st.insert_row K u j).failure = some .qrinsert_dimensions_mismatch ∧
    (st.insert_row K u j).kind = some .DimensionError ∧
    (∀ (st2 : ComplexQR α) (u2 : List α) (j2 : Int), u2.length ≠ st2.r.cols →
      (st2.insert_row K u2 j2).failure = (st.insert_row K u j).failure) ∧
    (st.insert_row K u j).state = st ∧
    (st.delete_row K j).failure = some .qrdelete_dimensions_mismatch ∧
    (st.delete_row K j).kind = some .ShapeError ∧
    (st.delete_row K j).state = st := by
  have h : st.q.is_square = false := by
    simp only [Mat.is_square, beq_eq_false_iff_ne, ne_eq]
    exact fun e => hsq e.symm
  refine ⟨?_, ?_, ?_, ?_, ?_, ?_, ?_⟩
  · simp [insert_row, h]
  · simp [insert_row, Outcome.kind, h, Msg.kind]
  · intro st2 u2 j2 hu
    have hu2 : ((u2.length : Nat) : Int) ≠ (st2.r.cols : Int) := by
      intro e; exact hu (by exact_mod_cast e)
    simp [insert_row, h, Mat.columns, hu2]
  · simp [insert_row, h]
  · simp [delete_row, h]
  · simp [delete_row, Outcome.kind, h, Msg.kind]
  · simp [delete_row, h]

theorem row_ops_nonsquare_fail_witness :
    ((⟨Mat.zeros 3 2, Mat.zeros 2 2⟩ : ComplexQR Int).insert_row sampleKernels [7, 8] 0).state
      = ⟨Mat.zeros 3 2, Mat.zeros 2 2⟩ ∧
    ((⟨Mat.zeros 3 2, Mat.zeros 2 2⟩ : ComplexQR Int).delete_row sampleKernels 0).kind
      = some .ShapeError ∧
    ((⟨Mat.zeros 3 2, Mat.zeros 2 2⟩ : ComplexQR Int).delete_row sampleKernels 0).state
      = ⟨Mat.zeros 3 2, Mat.zeros 2 2⟩ :=
  have h := row_ops_nonsquare_fail sampleKernels (⟨Mat.zeros 3 2, Mat.zeros 2 2⟩ : ComplexQR Int)
    [7, 8] 0 (by decide)
  ⟨h.2.2.2.1, h.2.2.2.2.2.1, h.2.2.2.2.2.2⟩

/-- C10: on a state with square Q of shape m×m and R of shape m×n, insert_row(u, j)
with length(u) = n and 0 ≤ j ≤ m succeeds and yields Q of shape (m+1)×(m+1) and
R of shape (m+1)×n; with length(u) = n and (j < 0 or j > m) it reports
IndexOutOfRange; with length(u) ≠ n it reports DimensionError. -/
theorem insert_row_outcome {α : Type} [Zero α] (K : Kernels α) (st : ComplexQR α)
    (u : List α) (j : Int) (hsq : st.q.cols = st.q.rows) (hr : st.r.rows = st.q.rows) :
    (u.length = st.r.cols → 0 ≤ j → j ≤ (st.q.rows : Int) →
      (st.insert_row K u j).failure = none ∧
      (st.insert_row K u j).state.q.rows = st.q.rows + 1 ∧
      (st.insert_row K u j).state.q.cols = st.q.rows + 1 ∧
      (st.insert_row K u j).state.r.rows = st.q.rows + 1 ∧
      (st.insert_row K u j).state.r.cols = st.r.cols) ∧
    (u.length = st.r.cols → (j < 0 ∨ j > (st.q.rows : Int)) →
      (st.insert_row K u j).kind = some .IndexOutOfRange) ∧
    (u.length ≠ st.r.cols → (st.insert_row K u j).kind = some .DimensionError) := by
  have h : st.q.is_square = true := by
    simp only [Mat.is_square, beq_iff_eq]; exact hsq.symm
  simp only [insert_row, Outcome.kind, Mat.columns, h, Bool.not_true, Bool.false_eq_true,
    false_or, ne_eq, Nat.cast_inj, hr]
  refine ⟨?_, ?_, ?_⟩
  · intro hu h0 h1
    rw [if_neg (not_not.mpr hu), if_neg (by omega)]
    simp only [Mat.withData, Mat.resize]
    refine ⟨trivial, ?_, ?_, ?_, ?_⟩ <;> omega
  · intro hu hj
    rw [if_neg (not_not.mpr hu), if_pos hj]; rfl
  · intro hu
    rw [if_pos hu]; rfl

theorem insert_row_outcome_witness :
    ((⟨Mat.zeros 2 2, Mat.zeros 2 3⟩ : ComplexQR Int).insert_row sampleKernels [1, 2, 3]
      2).failure = none ∧
    ((⟨Mat.zeros 2 2, Mat.zeros 2 3⟩ : ComplexQR Int).insert_row sampleKernels [1, 2, 3]
      2).state.q.rows = 3 ∧
    ((⟨Mat.zeros 2 2, Mat.zeros 2 3⟩ : ComplexQR Int).insert_row sampleKernels [1, 2, 3]
      2).state.q.cols = 3 ∧
    ((⟨Mat.zeros 2 2, Mat.zeros 2 3⟩ : ComplexQR Int).insert_row sampleKernels [1, 2, 3]
      2).state.r.rows = 3 ∧
    ((⟨Mat.zeros 2 2, Mat.zeros 2 3⟩ : ComplexQR Int).insert_row sampleKernels [1, 2, 3]
      2).state.r.cols = 3 :=
  (insert_row_outcome sampleKernels (⟨Mat.zeros 2 2, Mat.zeros 2 3⟩ : ComplexQR Int)
    [1, 2, 3] 2 rfl rfl).1 rfl (by decide) (by decide)

/-- C11: on a state with square Q of shape m×m and R of shape m×n, delete_row(j)
reports IndexOutOfRange exactly when j < 0 or j > m − 1 and reports no other
failure; when it succeeds Q has shape (m−1)×(m−1) and R has shape (m−1)×n. -/
theorem delete_row_outcome {α : Type} [Zero α] (K : Kernels α) (st : ComplexQR α)
    (j : Int) (hsq : st.q.cols = st.q.rows) (hr : st.r.rows = st.q.rows) :
    ((st.delete_row K j).kind = some .IndexOutOfRange ↔ (j < 0 ∨ j > (st.q.rows : Int) - 1)) ∧
    ((st.delete_row K j).failure ≠ none ↔ (j < 0 ∨ j > (st.q.rows : Int) - 1)) ∧
    ((st.delete_row K j).failure = none →
      (st.delete_row K j).state.q.rows = st.q.rows - 1 ∧
      (st.delete_row K j).state.q.cols = st.q.rows - 1 ∧
      (st.delete_row K j).state.r.rows = st.q.rows - 1 ∧
      (st.delete_row K j).state.r.cols = st.r.cols) := by
  have h : st.q.is_square = true := by
    simp only [Mat.is_square, beq_iff_eq]; exact hsq.symm
  simp only [delete_row, Outcome.kind, Mat.columns, h, Bool.not_true, Bool.false_eq_true,
    if_false, hr]
  refine ⟨?_, ?_, ?_⟩
  · split_ifs with h1 <;> simp_all [Msg.kind]
  · split_ifs with h1 <;> simp_all
  · split_ifs with h1
    · intro hc; exact absurd hc (by simp)
    · intro _
      simp only [Mat.withData, Mat.resize]
      refine ⟨?_, ?_, ?_, ?_⟩ <;> omega

theorem delete_row_outcome_witness :
    ((⟨Mat.zeros 3 3, Mat.zeros 3 2⟩ : ComplexQR Int).delete_row sampleKernels 2).state.q.rows
      = 2 ∧
    ((⟨Mat.zeros 3 3, Mat.zeros 3 2⟩ : ComplexQR Int).delete_row sampleKernels 2).state.q.cols
      = 2 ∧
    ((⟨Mat.zeros 3 3, Mat.zeros 3 2⟩ : ComplexQR Int).delete_row sampleKernels 2).state.r.rows
      = 2 ∧
    ((⟨Mat.zeros 3 3, Mat.zeros 3 2⟩ : ComplexQR Int).delete_row sampleKernels 2).state.r.cols
      = 2 :=
  (delete_row_outcome sampleKernels (⟨Mat.zeros 3 3, Mat.zeros 3 2⟩ : ComplexQR Int) 2
    rfl rfl).2.2 (by decide)

/-! ## Column shift and rank-1 update -/

/-- C12: on a state whose R has n columns, shift_cols(i, j) reports
IndexOutOfRange exactly when i or j lies outside [0, n − 1] and reports no other
failure; when it succeeds (i = j included) Q and R keep their shapes. -/
theorem shift_cols_outcome {α : Type} [Zero α] (K : Kernels α) (st : ComplexQR α)
    (i j : Int) :
    ((st.shift_cols K i j).kind = some .IndexOutOfRange ↔
      (i < 0 ∨ i > (st.r.cols : Int) - 1 ∨ j < 0 ∨ j > (st.r.cols : Int) - 1)) ∧
    ((st.shift_cols K i j).failure ≠ none ↔
      (i < 0 ∨ i > (st.r.cols : Int) - 1 ∨ j < 0 ∨ j > (st.r.cols : Int) - 1)) ∧
    ((st.shift_cols K i j).failure = none →
      (st.shift_cols K i j).state.q.rows = st.q.rows ∧
      (st.shift_cols K i j).state.q.cols = st.q.cols ∧
      (st.shift_cols K i j).state.r.rows = st.r.rows ∧
      (st.shift_cols K i j).state.r.cols = st.r.cols) := by
  simp only [shift_cols, Outcome.kind, Mat.columns]
  refine ⟨?_, ?_, ?_⟩
  · split_ifs with h1 <;> simp_all [Msg.kind]
  · split_ifs with h1 <;> simp_all
  · split_ifs with h1
    · intro hc; exact absurd hc (by simp)
    · intro _; exact ⟨rfl, rfl, rfl, rfl⟩

theorem shift_cols_outcome_witness :
    ((⟨Mat.zeros 3 3, Mat.zeros 3 2⟩ : ComplexQR Int).shift_cols sampleKernels 1 1).state.r.rows
      = 3 ∧
    ((⟨Mat.zeros 3 3, Mat.zeros 3 2⟩ : ComplexQR Int).shift_cols sampleKernels 1 1).state.r.cols
      = 2 :=
  have h := (shift_cols_outcome sampleKernels (⟨Mat.zeros 3 3, Mat.zeros 3 2⟩ : ComplexQR Int)
    1 1).2.2 (by decide)
  ⟨h.2.2.1, h.2.2.2⟩

/-- What the copy constructor does to the storage. -/
theorem Heap.copy_spec {α : Type} (h : Heap α) (b : Nat) :
    (h.copy b).2 = b ∧ (h.copy b).1.data = h.data ∧ (h.copy b).1.next = h.next ∧
    (h.copy b).1.count b = h.count b + 1 ∧ ∀ i, h.count i ≤ (h.copy b).1.count i := by
  refine ⟨rfl, rfl, rfl, by simp [Heap.copy], fun i => ?_⟩
  simp only [Heap.copy]
  split_ifs with hi
  · rw [hi]; omega
  · exact le_refl _

/-- What `fortran_vec ()` does to the storage when the buffer is shared: a fresh
buffer with the same contents is handed out and no other contents change. -/
theorem Heap.fortran_vec_shared {α : Type} (h : Heap α) (b : Nat) (hb : 1 < h.count b) :
    (h.fortran_vec b).2 = h.next ∧ (h.fortran_vec b).1.next = h.next + 1 ∧
    (h.fortran_vec b).1.data h.next = h.data b ∧
    (∀ i, i ≠ h.next → (h.fortran_vec b).1.data i = h.data i) ∧
    (b ≠ h.next → (h.fortran_vec b).1.count b + 1 = h.count b) ∧
    (∀ i, i ≠ h.next → i ≠ b → (h.fortran_vec b).1.count i = h.count i) := by
  have e : h.fortran_vec b =
      ({ data := fun i => if i = h.next then h.data b else h.data i
         count := fun i => if i = h.next then 1 else if i = b then h.count b - 1
           else h.count i
         next := h.next + 1 }, h.next) := by
    simp only [Heap.fortran_vec, if_pos hb]
  rw [e]
  refine ⟨rfl, rfl, ?_, ?_, ?_, ?_⟩
  · simp
  · intro i hi; simp [hi]
  · intro hbn
    simp only [if_neg hbn, if_true]
    omega
  · intro i hi hib; simp [hi, hib]

/-- The vector buffers of the caller are left as they were by `update_mem`, and
its outcome is the outcome of `update` on their contents: the kernel reads and
overwrites the fresh buffers that copy-on-write has given to `utmp` and
`vtmp`. -/
theorem update_mem_spec {α : Type} [Zero α] (K : Kernels α)
    (w : Int → Int → Int → Mat α → Mat α → List α → List α → List α × List α)
    (st : ComplexQR α) (h : Heap α) (u v : Nat)
    (hu : 1 ≤ h.count u) (hv : 1 ≤ h.count v) (hun : u < h.next) (hvn : v < h.next) :
    (st.update_mem K w h u v).2.data u = h.data u ∧
    (st.update_mem K w h u v).2.data v = h.data v ∧
    (st.update_mem K w h u v).1 = st.update K (h.data u) (h.data v) := by
  simp only [update_mem, update]
  by_cases hc : (((h.data u).length : Nat) : Int) = (st.q.rows : Int) ∧
      (((h.data v).length : Nat) : Int) = (st.r.columns : Int)
  · rw [if_pos hc, if_pos hc]
    obtain ⟨c1, c2, c3, c4, c5⟩ := Heap.copy_spec h u
    generalize h.copy u = hu1 at c1 c2 c3 c4 c5 ⊢
    obtain ⟨e1, e2, e3, e4, e5⟩ := Heap.copy_spec hu1.1 v
    generalize hu1.1.copy v = hv1 at e1 e2 e3 e4 e5 ⊢
    rw [c1, e1]
    have hcu : 1 < hv1.1.count u := by
      have := e5 u
      omega
    obtain ⟨f1, f2, f3, f4, f5, f6⟩ := Heap.fortran_vec_shared hv1.1 u hcu
    have hnext : hv1.1.next = h.next := by rw [e3, c3]
    have hdata : hv1.1.data = h.data := by rw [e2, c2]
    have hun2 : u ≠ hv1.1.next := by omega
    have hvn2 : v ≠ hv1.1.next := by omega
    have f5u := f5 hun2
    have hcv : 1 < (hv1.1.fortran_vec u).1.count v := by
      by_cases huv : v = u
      · subst huv
        have := c5 v
        omega
      · rw [f6 v hvn2 huv]
        have := c5 v
        omega
    generalize hv1.1.fortran_vec u = pu at f1 f2 f3 f4 f5 f5u f6 hcv ⊢
    obtain ⟨g1, g2, g3, g4, g5, g6⟩ := Heap.fortran_vec_shared pu.1 v hcv
    generalize pu.1.fortran_vec v = pv at g1 g2 g3 g4 g5 g6 ⊢
    have hd1 : pv.1.data pu.2 = h.data u := by
      rw [f1, g4 _ (by omega), f3, hdata]
    have hd2 : pv.1.data pv.2 = h.data v := by
      rw [g1, g3, f4 v hvn2, hdata]
    rw [hd1, hd2]
    refine ⟨?_, ?_, rfl⟩
    · simp only [Heap.write]
      rw [if_neg (by omega), if_neg (by omega), g4 u (by omega), f4 u hun2, hdata]
    · simp only [Heap.write]
      rw [if_neg (by omega), if_neg (by omega), g4 v (by omega), f4 v hvn2, hdata]
  · rw [if_neg hc, if_neg hc]
    exact ⟨rfl, rfl, rfl⟩

/-- C13: on a state with Q of m rows and R of n columns, single update(u, v)
reports DimensionError exactly when length(u) ≠ m or length(v) ≠ n and reports
no other failure; on failure Q and R are unchanged; on success Q and R keep
their shapes; the caller's u and v are not modified: with the storage of the
array class made explicit, the buffers of u and v hold after the call what they
held before, whatever the kernel writes into the buffers it is handed, and the
outcome is that of update on their contents. -/
theorem update_outcome {α : Type} [Zero α] (K : Kernels α)
    (w : Int → Int → Int → Mat α → Mat α → List α → List α → List α × List α)
    (st : ComplexQR α) (u v : List α) :
    ((st.update K u v).kind = some .DimensionError ↔
      (u.length ≠ st.q.rows ∨ v.length ≠ st.r.cols)) ∧
    ((st.update K u v).failure ≠ none ↔ (u.length ≠ st.q.rows ∨ v.length ≠ st.r.cols)) ∧
    ((st.update K u v).failure ≠ none → (st.update K u v).state = st) ∧
    ((st.update K u v).failure = none →
      (st.update K u v).state.q.rows = st.q.rows ∧
      (st.update K u v).state.q.cols = st.q.cols ∧
      (st.update K u v).state.r.rows = st.r.rows ∧
      (st.update K u v).state.r.cols = st.r.cols) ∧
    (∀ (h : Heap α) (bu bv : Nat), h.data bu = u → h.data bv = v →
      1 ≤ h.count bu → 1 ≤ h.count bv → bu < h.next → bv < h.next →
      (st.update_mem K w h bu bv).2.data bu = u ∧
      (st.update_mem K w h bu bv).2.data bv = v ∧
      (st.update_mem K w h bu bv).1 = st.update K u v) := by
  refine ⟨?_, ?_, ?_, ?_, ?_⟩
  · simp only [update, Outcome.kind, Mat.columns, Nat.cast_inj]
    split_ifs with h1
    · simp [h1.1, h1.2]
    · simp only [Option.map_some', Msg.kind, true_iff]
      by_contra hc
      exact h1 ⟨by_contra fun h => hc (Or.inl h), by_contra fun h => hc (Or.inr h)⟩
  · simp only [update, Mat.columns, Nat.cast_inj]
    split_ifs with h1
    · simp [h1.1, h1.2]
    · simp only [ne_eq, not_false_eq_true, true_iff, reduceCtorEq]
      by_contra hc
      exact h1 ⟨by_contra fun h => hc (Or.inl h), by_contra fun h => hc (Or.inr h)⟩
  · simp only [update]
    split_ifs with h1 <;> simp
  · simp only [update]
    split_ifs with h1
    · intro _; exact ⟨rfl, rfl, rfl, rfl⟩
    · intro hc; exact absurd hc (by simp)
  · intro h bu bv hdu hdv hu hv hun hvn
    have hs := update_mem_spec K w st h bu bv hu hv hun hvn
    rw [hdu, hdv] at hs
    exact hs

theorem update_outcome_witness :
    ((⟨Mat.zeros 3 2, Mat.zeros 2 2⟩ : ComplexQR Int).update_mem sampleKernels
      (fun _ _ _ _ _ _ _ => ([9, 9, 9], [9, 9]))
      ⟨fun b => if b = 0 then [1, 2, 3] else [4, 5], fun _ => 1, 2⟩ 0 1).2.data 0 = [1, 2, 3] ∧
    ((⟨Mat.zeros 3 2, Mat.zeros 2 2⟩ : ComplexQR Int).update_mem sampleKernels
      (fun _ _ _ _ _ _ _ => ([9, 9, 9], [9, 9]))
      ⟨fun b => if b = 0 then [1, 2, 3] else [4, 5], fun _ => 1, 2⟩ 0 1).2.data 1 = [4, 5] ∧
    ((⟨Mat.zeros 3 2, Mat.zeros 2 2⟩ : ComplexQR Int).update_mem sampleKernels
      (fun _ _ _ _ _ _ _ => ([9, 9, 9], [9, 9]))
      ⟨fun b => if b = 0 then [1, 2, 3] else [4, 5], fun _ => 1, 2⟩ 0 1).1
      = (⟨Mat.zeros 3 2, Mat.zeros 2 2⟩ : ComplexQR Int).update sampleKernels [1, 2, 3] [4, 5] :=
  (update_outcome sampleKernels (fun _ _ _ _ _ _ _ => ([9, 9, 9], [9, 9]))
    (⟨Mat.zeros 3 2, Mat.zeros 2 2⟩ : ComplexQR Int) [1, 2, 3] [4, 5]).2.2.2.2
    ⟨fun b => if b = 0 then [1, 2, 3] else [4, 5], fun _ => 1, 2⟩ 0 1 rfl rfl
    (by decide) (by decide) (by decide) (by decide)

/-- Two folds agree when their step functions agree on every state satisfying an
invariant of the first. -/
theorem foldl_congr_invariant {σ β : Type} (P : σ → Prop) (f g : σ → β → σ) (l : List β)
    (s : σ) (h0 : P s) (hP : ∀ t b, P t → P (f t b)) (hfg : ∀ t b, P t → f t b = g t b) :
    l.foldl f s = l.foldl g s := by
  induction l generalizing s with
  | nil => rfl
  | cons b bs ih =>
    simp only [List.foldl_cons]
    rw [← hfg s b h0]
    exact ih _ (hP s b h0)

/-- C14: when rows(U) = m, rows(V) = n and cols(U) = cols(V) = p, batch update(U, V)
reports no failure and leaves exactly the state reached by the single update
applied to the column pairs i = 0, ..., p − 1 in this order; otherwise it reports
DimensionError and leaves the state as it was; for p = 0 the state is unchanged. -/
theorem update_batch_refines_update_seq {α : Type} [Zero α] (K : Kernels α)
    (st : ComplexQR α) (u v : Mat α) :
    ((u.rows = st.q.rows ∧ v.rows = st.r.cols ∧ u.cols = v.cols) →
      (st.update_batch K u v).failure = none ∧
      (st.update_batch K u v).state = st.update_seq K u v u.cols) ∧
    (¬ (u.rows = st.q.rows ∧ v.rows = st.r.cols ∧ u.cols = v.cols) →
      (st.update_batch K u v).kind = some .DimensionError ∧
      (st.update_batch K u v).state = st) ∧
    ((u.rows = st.q.rows ∧ v.rows = st.r.cols ∧ u.cols = v.cols) → u.cols = 0 →
      (st.update_batch K u v).state = st) := by
  simp only [update_batch, Outcome.kind, Mat.columns, Nat.cast_inj]
  have key : (u.rows = st.q.rows ∧ v.rows = st.r.cols ∧ u.cols = v.cols) →
      forLoop 0 (u.cols : Int) (fun i (s : ComplexQR α) =>
        (⟨s.q.withData (K.zqr1up st.q.rows st.r.cols st.q.cols s.q s.r
            (u.column i) (v.column i)).1,
          s.r.withData (K.zqr1up st.q.rows st.r.cols st.q.cols s.q s.r
            (u.column i) (v.column i)).2⟩ : ComplexQR α)) st
      = st.update_seq K u v u.cols := by
    intro h
    simp only [forLoop, update_seq, sub_zero, Int.toNat_ofNat, zero_add]
    refine foldl_congr_invariant
      (fun s : ComplexQR α => s.q.rows = st.q.rows ∧ s.q.cols = st.q.cols ∧
        s.r.cols = st.r.cols) _ _ _ _ ⟨rfl, rfl, rfl⟩ ?_ ?_
    · intro t b ht
      exact ht
    · intro t b ht
      have hu : (((u.column (b : Int)).length : Nat) : Int) = (t.q.rows : Int) := by
        simp [Mat.column, h.1, ht.1]
      have hv : (((v.column (b : Int)).length : Nat) : Int) = (t.r.cols : Int) := by
        simp [Mat.column, h.2.1, ht.2.2]
      simp only [update, Mat.columns, hu, hv, and_self, if_true, ht.1, ht.2.1, ht.2.2]
  refine ⟨?_, ?_, ?_⟩
  · intro h
    rw [if_pos h]
    exact ⟨rfl, key h⟩
  · intro h
    rw [if_neg h]
    exact ⟨rfl, rfl⟩
  · intro h h0
    rw [if_pos h, h0]
    rfl

theorem update_batch_refines_update_seq_witness :
    ((⟨Mat.zeros 3 2, Mat.zeros 2 2⟩ : ComplexQR Int).update_batch sampleKernels
      (Mat.ofRows 3 2 [[1, 2], [3, 4], [5, 6]]) (Mat.ofRows 2 2 [[1, 0], [0, 1]])).failure
      = none ∧
    ((⟨Mat.zeros 3 2, Mat.zeros 2 2⟩ : ComplexQR Int).update_batch sampleKernels
      (Mat.ofRows 3 2 [[1, 2], [3, 4], [5, 6]]) (Mat.ofRows 2 2 [[1, 0], [0, 1]])).state
      = (⟨Mat.zeros 3 2, Mat.zeros 2 2⟩ : ComplexQR Int).update_seq sampleKernels
          (Mat.ofRows 3 2 [[1, 2], [3, 4], [5, 6]]) (Mat.ofRows 2 2 [[1, 0], [0, 1]]) 2 :=
  (update_batch_refines_update_seq sampleKernels (⟨Mat.zeros 3 2, Mat.zeros 2 2⟩ : ComplexQR Int)
    (Mat.ofRows 3 2 [[1, 2], [3, 4], [5, 6]]) (Mat.ofRows 2 2 [[1, 0], [0, 1]])).1
    ⟨rfl, rfl, rfl⟩

/-! ## Construction -/

/-- C15: for every matrix of shape m×n and every mode, factorize reports a
failure, of kind DimensionError, exactly when m = 0 or n = 0; in that case Q and
R stay empty and the result does not depend on the kernels, none being called. -/
theorem factorize_empty_check {α : Type} [Zero α] [Mul α] (K : Kernels α) (a : Mat α)
    (t : QRType) :
    ((factorize K a t).kind = some .DimensionError ↔ (a.rows = 0 ∨ a.cols = 0)) ∧
    ((factorize K a t).failure ≠ none ↔ (a.rows = 0 ∨ a.cols = 0)) ∧
    ((a.rows = 0 ∨ a.cols = 0) →
      (factorize K a t).state = ⟨Mat.empty, Mat.empty⟩ ∧
      ∀ K2 : Kernels α, factorize K2 a t = factorize K a t) := by
  simp only [factorize, init, Outcome.kind, Nat.cast_eq_zero]
  refine ⟨?_, ?_, ?_⟩
  · split_ifs with h1 h2 <;> simp_all [Msg.kind]
  · split_ifs with h1 h2 <;> simp_all
  · intro h
    simp only [if_pos h, true_and]
    intro K2
    trivial

theorem factorize_empty_check_witness :
    (factorize sampleKernels (Mat.zeros 0 3) .std).state = ⟨Mat.empty, Mat.empty⟩ :=
  ((factorize_empty_check sampleKernels (Mat.zeros 0 3) .std).2.2 (Or.inl rfl)).1

/-- C16: for an m×n matrix with m, n ≥ 1, factorize in full mode (`std`) yields Q
of shape m×m and R of shape m×n, and in economy mode Q of shape m×min(m,n) and R
of shape min(m,n)×n; in both modes cols(Q) = rows(R) and cols(Q) ≤ rows(Q). -/
theorem factorize_full_economy_shapes {α : Type} [Zero α] [Mul α] (K : Kernels α)
    (a : Mat α) (hm : 1 ≤ a.rows) (hn : 1 ≤ a.cols) :
    ((factorize K a .std).failure = none ∧
      (factorize K a .std).state.q.rows = a.rows ∧
      (factorize K a .std).state.q.cols = a.rows ∧
      (factorize K a .std).state.r.rows = a.rows ∧
      (factorize K a .std).state.r.cols = a.cols) ∧
    ((factorize K a .economy).failure = none ∧
      (factorize K a .economy).state.q.rows = a.rows ∧
      (factorize K a .economy).state.q.cols = min a.rows a.cols ∧
      (factorize K a .economy).state.r.rows = min a.rows a.cols ∧
      (factorize K a .economy).state.r.cols = a.cols) ∧
    (∀ t : QRType, t ≠ .raw →
      (factorize K a t).state.q.cols = (factorize K a t).state.r.rows ∧
      (factorize K a t).state.q.cols ≤ (factorize K a t).state.q.rows) := by
  have hs := factorize_shapes K a .std hm hn (by decide)
  have he := factorize_shapes K a .economy hm hn (by decide)
  simp only [reduceCtorEq, if_false, false_and] at hs
  simp only [if_true, true_and] at he
  have hstd : (factorize K a .std).failure = none ∧
      (factorize K a .std).state.q.rows = a.rows ∧
      (factorize K a .std).state.q.cols = a.rows ∧
      (factorize K a .std).state.r.rows = a.rows ∧
      (factorize K a .std).state.r.cols = a.cols := hs
  have heco : (factorize K a .economy).failure = none ∧
      (factorize K a .economy).state.q.rows = a.rows ∧
      (factorize K a .economy).state.q.cols = min a.rows a.cols ∧
      (factorize K a .economy).state.r.rows = min a.rows a.cols ∧
      (factorize K a .economy).state.r.cols = a.cols := by
    obtain ⟨h1, h2, h3, h4, h5⟩ := he
    refine ⟨h1, h2, ?_, ?_, h5⟩
    · rw [h3]; split_ifs <;> omega
    · rw [h4]; split_ifs <;> omega
  refine ⟨hstd, heco, ?_⟩
  intro t ht
  cases t with
  | std => rw [hstd.2.1, hstd.2.2.1, hstd.2.2.2.1]; exact ⟨rfl, le_refl _⟩
  | raw => exact absurd rfl ht
  | economy =>
    rw [heco.2.1, heco.2.2.1, heco.2.2.2.1]
    exact ⟨rfl, Nat.min_le_left _ _⟩

theorem factorize_full_economy_shapes_witness :
    (factorize sampleKernels (Mat.ofRows 3 2 [[1, 0], [0, 1], [1, 1]]) .std).state.q.cols = 3 ∧
    (factorize sampleKernels (Mat.ofRows 3 2 [[1, 0], [0, 1], [1, 1]]) .std).state.r.rows = 3 ∧
    (factorize sampleKernels (Mat.ofRows 3 2 [[1, 0], [0, 1], [1, 1]]) .std).state.r.cols = 2 :=
  have h := (factorize_full_economy_shapes sampleKernels
    (Mat.ofRows 3 2 [[1, 0], [0, 1], [1, 1]]) (by decide) (by decide)).1
  ⟨h.2.2.1, h.2.2.2.1, h.2.2.2.2⟩

/-- C19: constructing a factorization from a pair (Q_arg, R_arg) reports a
failure, of kind ShapeMismatch, exactly when cols(Q_arg) ≠ rows(R_arg); on
success the members are Q_arg and R_arg themselves, on failure they are empty. -/
theorem ofQR_outcome {α : Type} [Zero α] (q_arg r_arg : Mat α) :
    ((ofQR q_arg r_arg).kind = some .ShapeMismatch ↔ q_arg.cols ≠ r_arg.rows) ∧
    ((ofQR q_arg r_arg).failure ≠ none ↔ q_arg.cols ≠ r_arg.rows) ∧
    ((ofQR q_arg r_arg).failure = none → (ofQR q_arg r_arg).state = ⟨q_arg, r_arg⟩) ∧
    ((ofQR q_arg r_arg).failure ≠ none → (ofQR q_arg r_arg).state = ⟨Mat.empty, Mat.empty⟩) := by
  simp only [ofQR, Outcome.kind, Mat.columns]
  refine ⟨?_, ?_, ?_, ?_⟩ <;> split_ifs with h1 <;> simp_all [Msg.kind]

theorem ofQR_outcome_witness :
    (ofQR (Mat.zeros 3 2) (Mat.zeros 2 4)).state = ⟨Mat.zeros 3 2, Mat.zeros 2 4⟩ :=
  (ofQR_outcome (Mat.zeros 3 2) (Mat.zeros 2 4)).2.2.1 (by decide)

/-! ## Contents of R after `init` -/

/-- A loop whose upper bound does not exceed its lower bound does nothing. -/
theorem forLoop_of_le {σ : Type} (lo hi : Int) (body : Int → σ → σ) (s : σ) (h : hi ≤ lo) :
    forLoop lo hi body s = s := by
  have : (hi - lo).toNat = 0 := by omega
  simp [forLoop, this]

/-- Unrolling the last iteration of a loop. -/
theorem forLoop_succ {σ : Type} (lo hi : Int) (body : Int → σ → σ) (s : σ) (h : lo ≤ hi) :
    forLoop lo (hi + 1) body s = body hi (forLoop lo hi body s) := by
  have h1 : (hi + 1 - lo).toNat = (hi - lo).toNat + 1 := by omega
  have h2 : lo + (((hi - lo).toNat : Nat) : Int) = hi := by omega
  simp only [forLoop, h1, List.range_succ, List.foldl_append, List.foldl_cons, List.foldl_nil, h2]

/-- Element read after an assignment. -/
theorem Mat.set_elem {α : Type} (a : Mat α) (i j : Int) (v : α) (x y : Nat) :
    (a.set i j v).elem x y = if x = i.toNat ∧ y = j.toNat then v else a.elem x y := rfl

/-- Closed form of a loop that rewrites the entries `(i, j)`, `lo ≤ i < hi`, of one
column `j`, each from its own current value. -/
theorem columnLoop_elem {α : Type} (lo hi j : Int) (hlo : 0 ≤ lo)
    (h : Int → α → α) (B : Mat α) (x y : Nat) :
    (forLoop lo hi (fun i S => S.set i j (h i (S.get i j))) B).elem x y =
      if y = j.toNat ∧ lo ≤ (x : Int) ∧ (x : Int) < hi then h x (B.elem x y) else B.elem x y := by
  rcases le_or_lt lo hi with hle | hlt
  · obtain ⟨c, rfl⟩ : ∃ c : Nat, hi = lo + (c : Int) := ⟨(hi - lo).toNat, by omega⟩
    clear hle
    induction c generalizing x y with
    | zero => rw [forLoop_of_le _ _ _ _ (by simp), if_neg (by omega)]
    | succ c ih =>
      have hn : lo ≤ lo + (c : Int) := by omega
      have hc1 : lo + ((c + 1 : Nat) : Int) = lo + (c : Int) + 1 := by push_cast; ring
      rw [hc1]
      generalize lo + (c : Int) = n at hn ih ⊢
      rw [forLoop_succ _ _ _ _ hn, Mat.set_elem, Mat.get, ih n.toNat j.toNat, ih x y]
      have hn0 : ((n.toNat : Nat) : Int) = n := by omega
      by_cases hx : (x : Int) = n
      · have hx2 : x = n.toNat := by omega
        by_cases hy : y = j.toNat
        · subst hx2 hy
          rw [if_pos ⟨rfl, rfl⟩, if_neg (by omega), if_pos (by omega), hn0]
        · rw [if_neg (by tauto), if_neg (by tauto), if_neg (by tauto)]
      · have hx2 : x ≠ n.toNat := by omega
        rw [if_neg (by tauto)]
        by_cases hc : y = j.toNat ∧ lo ≤ (x : Int) ∧ (x : Int) < n
        · rw [if_pos hc, if_pos ⟨hc.1, hc.2.1, by omega⟩]
        · rw [if_neg hc, if_neg (by omega)]
  · rw [forLoop_of_le _ _ _ _ (le_of_lt hlt), if_neg (by omega)]

/-- Closed form of the doubly nested loops of `init`: for each column `j` with
`0 ≤ j < N` the entries `(i, j)`, `lo j ≤ i < hi j`, are rewritten, each from its
own value. -/
theorem nestedLoop_elem {α : Type} (N : Int) (lo hi : Int → Int)
    (hlo : ∀ j, 0 ≤ j → 0 ≤ lo j) (h : Int → Int → α → α) (A : Mat α) (x y : Nat) :
    (forLoop 0 N (fun j S =>
        forLoop (lo j) (hi j) (fun i T => T.set i j (h j i (T.get i j))) S) A).elem x y =
      if (y : Int) < N ∧ lo y ≤ (x : Int) ∧ (x : Int) < hi y then h y x (A.elem x y)
      else A.elem x y := by
  rcases le_or_lt 0 N with hle | hlt
  · obtain ⟨c, rfl⟩ : ∃ c : Nat, N = (c : Int) := ⟨N.toNat, by omega⟩
    clear hle
    induction c generalizing x y with
    | zero => rw [forLoop_of_le _ _ _ _ (by simp), if_neg (by omega)]
    | succ c ih =>
      have hn : (0 : Int) ≤ (c : Int) := by omega
      have hc1 : ((c + 1 : Nat) : Int) = (c : Int) + 1 := by push_cast; ring
      rw [hc1]
      generalize (c : Int) = n at hn ih ⊢
      rw [forLoop_succ _ _ _ _ hn, columnLoop_elem (lo n) (hi n) n (hlo n hn) (h n), ih x y]
      by_cases hy : (y : Int) = n
      · subst hy
        have hy2 : y = ((y : Int)).toNat := by omega
        by_cases hc : lo (y : Int) ≤ (x : Int) ∧ (x : Int) < hi (y : Int)
        · rw [if_pos ⟨hy2, hc⟩, if_neg (by omega), if_pos ⟨by omega, hc⟩]
        · rw [if_neg (by tauto), if_neg (by omega), if_neg (by tauto)]
      · have hy2 : y ≠ n.toNat := by omega
        rw [if_neg (by tauto)]
        by_cases hc : (y : Int) < n ∧ lo y ≤ (x : Int) ∧ (x : Int) < hi y
        · rw [if_pos hc, if_pos ⟨by omega, hc.2⟩]
        · rw [if_neg hc, if_neg (by omega)]
  · rw [forLoop_of_le _ _ _ _ (le_of_lt hlt), if_neg (by omega)]

/-- Closed form of the copy loop of `init`. -/
theorem copyUpperTriangle_elem {α : Type} (n min_mn : Int) (A r : Mat α) (x y : Nat) :
    (copyUpperTriangle n min_mn A r).elem x y =
      if (y : Int) < n ∧
          (x : Int) < (if (y : Int) < min_mn - 1 then (y : Int) else min_mn - 1) + 1 then
        A.elem x y
      else r.elem x y := by
  have h := nestedLoop_elem n (fun _ => 0)
    (fun j => (if j < min_mn - 1 then j else min_mn - 1) + 1) (fun _ _ => le_refl _)
    (fun j i _ => A.get i j) r x y
  simp only [Mat.get, Int.toNat_ofNat, Int.ofNat_nonneg, true_and] at h
  exact h

/-- Every entry of the R produced by `factorize` in a mode that forms Q: inside
the band copied by `init` it is the entry of the array returned by `zgeqrf`,
elsewhere it is zero. -/
theorem factorize_r_elem {α : Type} [Zero α] [Mul α] (K : Kernels α) (a : Mat α)
    (t : QRType) (hm : 1 ≤ a.rows) (hn : 1 ≤ a.cols) (ht : t ≠ .raw) (x y : Nat) :
    (factorize K a t).state.r.elem x y =
      if (y : Int) < (a.cols : Int) ∧
          (x : Int) < (if (y : Int) < (if (a.rows : Int) < a.cols then (a.rows : Int)
              else a.cols) - 1 then (y : Int)
            else (if (a.rows : Int) < a.cols then (a.rows : Int) else a.cols) - 1) + 1 then
        (K.zgeqrf a.rows a.cols (workArray a t)).1 x y
      else 0 := by
  have h1 : ¬ ((a.rows : Int) = 0 ∨ (a.cols : Int) = 0) := by omega
  simp only [factorize, init, if_neg h1, if_neg ht, copyUpperTriangle_elem, workArray,
    Mat.withData]
  have hz : ∀ p q : Int, ((Mat.empty : Mat α).resize p q 0).elem x y = 0 := by
    intro p q; simp [Mat.resize, Mat.empty]
  congr 1
  split_ifs <;> exact hz _ _

/-- C17: for an m×n matrix with m, n ≥ 1 and a mode that forms Q (full or
economy), whatever the kernels return, the R produced by factorize is upper
triangular: inside its shape, R(i,j) = 0 for i > j, and R(i,j) is the entry (i,j)
of the array returned by `zgeqrf` for i ≤ j. -/
theorem factorize_r_upper_triangular {α : Type} [Zero α] [Mul α] (K : Kernels α)
    (a : Mat α) (t : QRType) (hm : 1 ≤ a.rows) (hn : 1 ≤ a.cols) (ht : t ≠ .raw)
    (i j : Nat) (hi : i < (factorize K a t).state.r.rows)
    (hj : j < (factorize K a t).state.r.cols) :
    (j < i → (factorize K a t).state.r.elem i j = 0) ∧
    (i ≤ j → (factorize K a t).state.r.elem i j =
      (K.zgeqrf a.rows a.cols (workArray a t)).1 i j) := by
  obtain ⟨_, _, _, hrr, hrc⟩ := factorize_shapes K a t hm hn ht
  rw [hrr] at hi
  rw [hrc] at hj
  rw [factorize_r_elem K a t hm hn ht]
  constructor
  · intro hlt
    rw [if_neg]
    split_ifs <;> omega
  · intro hle
    rw [if_pos]
    split_ifs at hi ⊢ <;> omega

theorem factorize_r_upper_triangular_witness :
    ((factorize sampleKernels (Mat.ofRows 3 2 [[1, 2], [3, 4], [5, 6]]) .std).state.r.elem 2 1
      = 0) ∧
    ((factorize sampleKernels (Mat.ofRows 3 2 [[1, 2], [3, 4], [5, 6]]) .std).state.r.elem 1 1
      = (sampleKernels.zgeqrf 3 2 (workArray (Mat.ofRows 3 2 [[1, 2], [3, 4], [5, 6]]) .std)).1
          1 1) :=
  ⟨(factorize_r_upper_triangular sampleKernels (Mat.ofRows 3 2 [[1, 2], [3, 4], [5, 6]]) .std
      (by decide) (by decide) (by decide) 2 1 (by decide) (by decide)).1 (by decide),
   (factorize_r_upper_triangular sampleKernels (Mat.ofRows 3 2 [[1, 2], [3, 4], [5, 6]]) .std
      (by decide) (by decide) (by decide) 1 1 (by decide) (by decide)).2 (by decide)⟩

/-- The raw-mode loop of `init` keeps the shape of the work array. -/
theorem scaleBelowDiagonal_shape {α : Type} [Mul α] (m min_mn : Int) (tau : Nat → α)
    (A : Mat α) :
    (scaleBelowDiagonal m min_mn tau A).rows = A.rows ∧
    (scaleBelowDiagonal m min_mn tau A).cols = A.cols := by
  unfold scaleBelowDiagonal
  refine forLoop_invariant (fun R : Mat α => R.rows = A.rows ∧ R.cols = A.cols) _ _ _ _
    ⟨rfl, rfl⟩ ?_
  intro jj R hR
  refine forLoop_invariant (fun S : Mat α => S.rows = A.rows ∧ S.cols = A.cols) _ _ _ _ hR ?_
  intro ii S hS
  exact hS

/-- Closed form of the raw-mode loop of `init`. -/
theorem scaleBelowDiagonal_elem {α : Type} [Mul α] (m min_mn : Int) (hmin : 0 ≤ min_mn)
    (tau : Nat → α) (A : Mat α) (x y : Nat) :
    (scaleBelowDiagonal m min_mn tau A).elem x y =
      if (y : Int) < min_mn ∧
          (if (y : Int) < min_mn - 1 then (y : Int) else min_mn - 1) + 1 ≤ (x : Int) ∧
          (x : Int) < m then
        A.elem x y * tau y
      else A.elem x y := by
  have h := nestedLoop_elem min_mn
    (fun j => (if j < min_mn - 1 then j else min_mn - 1) + 1) (fun _ => m)
    (fun j hj => by dsimp only; split_ifs <;> omega)
    (fun j _ v => v * tau j.toNat) A x y
  simp only [Int.toNat_ofNat] at h
  exact h

/-- C18: for an m×n matrix with m, n ≥ 1, factorize in raw mode reports no
failure, forms no Q (Q stays the empty 0×0 matrix) and yields R of shape m×n;
inside that shape every entry strictly below the diagonal is the entry of the
array returned by `zgeqrf` multiplied by tau(j), j being its column, and every
entry on or above the diagonal is the entry returned by `zgeqrf`. -/
theorem factorize_raw_packed {α : Type} [Zero α] [Mul α] (K : Kernels α) (a : Mat α)
    (hm : 1 ≤ a.rows) (hn : 1 ≤ a.cols) :
    (factorize K a .raw).failure = none ∧
    (factorize K a .raw).state.q = Mat.empty ∧
    (factorize K a .raw).state.r.rows = a.rows ∧
    (factorize K a .raw).state.r.cols = a.cols ∧
    ∀ i j : Nat, i < a.rows → j < a.cols →
      (j < i → (factorize K a .raw).state.r.elem i j =
        (K.zgeqrf a.rows a.cols (workArray a .raw)).1 i j *
          (K.zgeqrf a.rows a.cols (workArray a .raw)).2 j) ∧
      (i ≤ j → (factorize K a .raw).state.r.elem i j =
        (K.zgeqrf a.rows a.cols (workArray a .raw)).1 i j) := by
  have h1 : ¬ ((a.rows : Int) = 0 ∨ (a.cols : Int) = 0) := by omega
  have hne : QRType.raw ≠ QRType.economy := by decide
  have hmin : (0 : Int) ≤ (if (a.rows : Int) < a.cols then (a.rows : Int) else a.cols) := by
    split_ifs <;> omega
  simp only [factorize, init, if_neg h1, if_true, workArray, ne_eq, hne, not_false_eq_true,
    and_true]
  by_cases hgt : (a.rows : Int) > (a.cols : Int)
  · simp only [if_pos hgt]
    refine ⟨trivial, trivial, by simp [Mat.resize], by simp [Mat.resize], ?_⟩
    intro i j hi hj
    simp only [Mat.resize]
    rw [if_pos ⟨by rw [(scaleBelowDiagonal_shape _ _ _ _).1]; exact hi,
      by rw [(scaleBelowDiagonal_shape _ _ _ _).2]
         simp only [Mat.withData, Mat.insert, Int.toNat_ofNat]
         omega⟩]
    rw [scaleBelowDiagonal_elem _ _ hmin]
    simp only [Mat.withData]
    constructor
    · intro hlt
      rw [if_pos]
      split_ifs <;> omega
    · intro hle
      rw [if_neg]
      split_ifs <;> omega
  · simp only [if_neg hgt]
    refine ⟨trivial, trivial, ?_, ?_, ?_⟩
    · rw [(scaleBelowDiagonal_shape _ _ _ _).1]; rfl
    · rw [(scaleBelowDiagonal_shape _ _ _ _).2]; rfl
    · intro i j hi hj
      rw [scaleBelowDiagonal_elem _ _ hmin]
      simp only [Mat.withData]
      constructor
      · intro hlt
        rw [if_pos]
        split_ifs <;> omega
      · intro hle
        rw [if_neg]
        split_ifs <;> omega

theorem factorize_raw_packed_witness :
    ((factorize tauKernels (Mat.ofRows 3 2 [[1, 2], [3, 4], [5, 6]]) .raw).state.r.elem 2 1
      = (tauKernels.zgeqrf 3 2 (workArray (Mat.ofRows 3 2 [[1, 2], [3, 4], [5, 6]]) .raw)).1 2 1
        * (tauKernels.zgeqrf 3 2 (workArray (Mat.ofRows 3 2 [[1, 2], [3, 4], [5, 6]]) .raw)).2 1) ∧
    ((factorize tauKernels (Mat.ofRows 3 2 [[1, 2], [3, 4], [5, 6]]) .raw).state.r.elem 0 1
      = (tauKernels.zgeqrf 3 2 (workArray (Mat.ofRows 3 2 [[1, 2], [3, 4], [5, 6]]) .raw)).1 0 1) :=
  have h := (factorize_raw_packed tauKernels (Mat.ofRows 3 2 [[1, 2], [3, 4], [5, 6]])
    (by decide) (by decide)).2.2.2.2
  ⟨(h 2 1 (by decide) (by decide)).1 (by decide), (h 0 1 (by decide) (by decide)).2 (by decide)⟩

/-! ## Index test of the batch insertion -/

/-- The duplicate flag of the batch operators is `false` whatever the indices. -/
theorem dupsFlag_eq_false (js : List Int) : dupsFlag js = false := by
  unfold dupsFlag
  exact forLoop_invariant (fun b : Bool => b = false) _ _ _ _ rfl
    (fun i b hb => by rw [hb]; rfl)

/-- In an ascending list the first element is below every element. -/
theorem ascending_first_le (l : List Int) (hs : l.Pairwise (fun a b => a ≤ b)) (x : Int)
    (hx : x ∈ l) : l.getD 0 0 ≤ x := by
  cases l with
  | nil => cases hx
  | cons a t =>
    simp only [List.getD_cons_zero]
    rcases List.mem_cons.mp hx with h | h
    · exact le_of_eq h.symm
    · exact (List.pairwise_cons.mp hs).1 x h

/-- The last element of a non-empty list is one of its elements. -/
theorem last_mem_of_ne_nil (l : List Int) (h : l ≠ []) : l.getD (l.length - 1) 0 ∈ l := by
  induction l with
  | nil => exact absurd rfl h
  | cons a t ih =>
    cases t with
    | nil => simp
    | cons b t2 =>
      have := ih (by simp)
      simp only [List.length_cons, Nat.add_sub_cancel, List.getD_cons_succ] at this ⊢
      exact List.mem_cons_of_mem _ this

/-- In an ascending list every element is below the last one. -/
theorem ascending_le_last (l : List Int) (hs : l.Pairwise (fun a b => a ≤ b)) (x : Int)
    (hx : x ∈ l) : x ≤ l.getD (l.length - 1) 0 := by
  induction l with
  | nil => cases hx
  | cons a t ih =>
    cases t with
    | nil =>
      simp only [List.mem_singleton] at hx
      simp [hx]
    | cons b t2 =>
      have hp := List.pairwise_cons.mp hs
      have hlast := last_mem_of_ne_nil (b :: t2) (by simp)
      simp only [List.length_cons, Nat.add_sub_cancel, List.getD_cons_succ] at hlast ih ⊢
      rcases List.mem_cons.mp hx with h | h
      · rw [h]; exact hp.1 _ hlast
      · exact ih hp.2 h

/-- The sorted positions of the batch insertion are a rearrangement of the
positions given. -/
theorem sortAscending_perm (j : List Int) : ((sortAscending j).map Prod.fst).Perm j := by
  have h1 := (List.perm_insertionSort (fun a b : Int × Nat => a.1 ≤ b.1)
    (j.zip (List.range j.length))).map Prod.fst
  have h2 : (j.zip (List.range j.length)).map Prod.fst = j := by
    apply List.map_fst_zip
    simp
  rw [h2] at h1
  exact h1

/-- The sorted positions of the batch insertion are in ascending order. -/
theorem sortAscending_sorted (j : List Int) :
    ((sortAscending j).map Prod.fst).Pairwise (fun a b => a ≤ b) := by
  haveI : IsTotal (Int × Nat) (fun a b => a.1 ≤ b.1) := ⟨fun a b => le_total a.1 b.1⟩
  haveI : IsTrans (Int × Nat) (fun a b => a.1 ≤ b.1) := ⟨fun a b c h1 h2 => le_trans h1 h2⟩
  have h := List.sorted_insertionSort (fun a b : Int × Nat => a.1 ≤ b.1)
    (j.zip (List.range j.length))
  rw [List.pairwise_map]
  exact h

/-- The test `js(0) < 0 || js(nj-1) > n` on the sorted positions holds exactly when
some position given lies outside `[0, n]`. -/
theorem insert_range_test_iff (j : List Int) (n : Int) :
    (((((sortAscending j).map Prod.fst).length : Nat) : Int) > 0 ∧
      (idx ((sortAscending j).map Prod.fst) 0 < 0 ∨
        idx ((sortAscending j).map Prod.fst)
          (((((sortAscending j).map Prod.fst).length : Nat) : Int) - 1) > n)) ↔
    ∃ x ∈ j, x < 0 ∨ x > n := by
  have hperm := sortAscending_perm j
  have hsort := sortAscending_sorted j
  generalize (sortAscending j).map Prod.fst = js at hperm hsort
  have hlast : ((js.length : Int) - 1).toNat = js.length - 1 := by omega
  simp only [idx, Int.toNat_zero, hlast]
  constructor
  · rintro ⟨hpos, h⟩
    have hne : js ≠ [] := by
      intro h0; rw [h0] at hpos; simp at hpos
    rcases h with h | h
    · refine ⟨js.getD 0 0, hperm.mem_iff.mp ?_, Or.inl h⟩
      cases js with
      | nil => exact absurd rfl hne
      | cons a t => simp
    · exact ⟨_, hperm.mem_iff.mp (last_mem_of_ne_nil js hne), Or.inr h⟩
  · rintro ⟨x, hx, h⟩
    have hx2 : x ∈ js := hperm.mem_iff.mpr hx
    have hpos : (js.length : Int) > 0 := by
      have := List.length_pos_of_mem hx2
      omega
    refine ⟨hpos, ?_⟩
    rcases h with h | h
    · exact Or.inl (lt_of_le_of_lt (ascending_first_le js hsort x hx2) h)
    · exact Or.inr (lt_of_lt_of_le h (ascending_le_last js hsort x hx2))

/-- C20, as stated, fails: on the state Q 0×0, R 0×1 (n = 1) with U of shape 0×2,
which passes the dimension test, the distinct positions [0, 2] = [0, n+1], each
inside the range valid at its own insertion, are not accepted: the call reports
IndexOutOfRange and leaves the state as it was. -/
theorem insert_col_batch_rejects_later_range :
    ((⟨Mat.zeros 0 0, Mat.zeros 0 1⟩ : ComplexQR Int).insert_col_batch sampleKernels
        (Mat.zeros 0 2) [0, 2]).kind = some .IndexOutOfRange ∧
    ((⟨Mat.zeros 0 0, Mat.zeros 0 1⟩ : ComplexQR Int).insert_col_batch sampleKernels
        (Mat.zeros 0 2) [0, 2]).state = ⟨Mat.zeros 0 0, Mat.zeros 0 1⟩ := by
  refine ⟨?_, ?_⟩
  · decide
  · rfl

/-- C20, amended: on a state whose R has n columns, batch insert_col reports
IndexOutOfRange exactly when U passes the dimension test of the operator and
some position lies outside [0, n], the range valid before the first insertion
(testing the smallest and the largest position is equivalent to testing all),
and accepts the batch exactly when U passes the dimension test and every
position lies in [0, n]; a batch with a position above n, such as [0, n+1], is
never accepted. -/
theorem insert_col_batch_index_check {α : Type} [Zero α] (K : Kernels α)
    (st : ComplexQR α) (u : Mat α) (j : List Int) :
    ((st.insert_col_batch K u j).kind = some .IndexOutOfRange ↔
      ((u.length = st.q.rows ∧ u.cols = j.length) ∧
        ∃ x ∈ j, x < 0 ∨ x > (st.r.cols : Int))) ∧
    ((st.insert_col_batch K u j).failure = none ↔
      ((u.length = st.q.rows ∧ u.cols = j.length) ∧
        ∀ x ∈ j, 0 ≤ x ∧ x ≤ (st.r.cols : Int))) ∧
    ((∃ x ∈ j, x > (st.r.cols : Int)) → (st.insert_col_batch K u j).failure ≠ none) := by
  have hlen : ((sortAscending j).map Prod.fst).length = j.length :=
    (sortAscending_perm j).length_eq
  have hr := insert_range_test_iff j (st.r.cols : Int)
  have hmain :
      ((st.insert_col_batch K u j).kind = some .IndexOutOfRange ↔
        ((u.length = st.q.rows ∧ u.cols = j.length) ∧
          ∃ x ∈ j, x < 0 ∨ x > (st.r.cols : Int))) ∧
      ((st.insert_col_batch K u j).failure = none ↔
        ((u.length = st.q.rows ∧ u.cols = j.length) ∧
          ∀ x ∈ j, 0 ≤ x ∧ x ≤ (st.r.cols : Int))) := by
    simp only [insert_col_batch, Outcome.kind, dupsFlag_eq_false, Bool.false_eq_true, if_false,
      Mat.columns]
    by_cases hd : ((u.length : Nat) : Int) ≠ (st.q.rows : Int) ∨
        ((u.cols : Nat) : Int) ≠ ((((sortAscending j).map Prod.fst).length : Nat) : Int)
    · rw [if_pos hd]
      have hnd : ¬ (u.length = st.q.rows ∧ u.cols = j.length) := by
        rintro ⟨h1, h2⟩
        rw [hlen, h1, h2] at hd
        simp at hd
      exact ⟨⟨fun h => absurd h (by simp [Msg.kind]), fun h => absurd h.1 hnd⟩,
        ⟨fun h => absurd h (by simp), fun h => absurd h.1 hnd⟩⟩
    · rw [if_neg hd]
      have hdim : u.length = st.q.rows ∧ u.cols = j.length := by
        rw [hlen] at hd
        constructor
        · by_contra h; exact hd (Or.inl (by exact_mod_cast h))
        · by_contra h; exact hd (Or.inr (by exact_mod_cast h))
      by_cases hc : ∃ x ∈ j, x < 0 ∨ x > (st.r.cols : Int)
      · rw [if_pos (hr.mpr hc)]
        refine ⟨⟨fun _ => ⟨hdim, hc⟩, fun _ => rfl⟩,
          ⟨fun h => absurd h (by simp), fun h => ?_⟩⟩
        obtain ⟨x, hx, hx2⟩ := hc
        have := h.2 x hx
        omega
      · rw [if_neg (fun h => hc (hr.mp h))]
        have hall : ∀ x ∈ j, 0 ≤ x ∧ x ≤ (st.r.cols : Int) := by
          intro x hx
          by_contra hn
          exact hc ⟨x, hx, by omega⟩
        refine ⟨⟨fun h => ?_, fun h => absurd h.2 hc⟩, ⟨fun _ => ⟨hdim, hall⟩, fun _ => ?_⟩⟩
        · split_ifs at h <;> simp at h
        · split_ifs <;> rfl
  refine ⟨hmain.1, hmain.2, ?_⟩
  rintro ⟨x, hx, hx2⟩ hok
  have := (hmain.2.mp hok).2 x hx
  omega

theorem insert_col_batch_index_check_witness :
    ((⟨Mat.zeros 0 0, Mat.zeros 0 1⟩ : ComplexQR Int).insert_col_batch sampleKernels
        (Mat.zeros 0 2) [1, 0]).failure = none ∧
    ((⟨Mat.zeros 0 0, Mat.zeros 0 1⟩ : ComplexQR Int).insert_col_batch sampleKernels
        (Mat.zeros 0 2) [0, 2]).kind = some .IndexOutOfRange ∧
    ((⟨Mat.zeros 3 3, Mat.zeros 3 2⟩ : ComplexQR Int).insert_col_batch sampleKernels
        (Mat.zeros 3 1) [2]).failure = none :=
  ⟨(insert_col_batch_index_check sampleKernels (⟨Mat.zeros 0 0, Mat.zeros 0 1⟩ : ComplexQR Int)
      (Mat.zeros 0 2) [1, 0]).2.1.mpr ⟨⟨rfl, rfl⟩, by decide⟩,
   (insert_col_batch_index_check sampleKernels (⟨Mat.zeros 0 0, Mat.zeros 0 1⟩ : ComplexQR Int)
      (Mat.zeros 0 2) [0, 2]).1.mpr ⟨⟨rfl, rfl⟩, ⟨2, by decide, by decide⟩⟩,
   (insert_col_batch_index_check sampleKernels (⟨Mat.zeros 3 3, Mat.zeros 3 2⟩ : ComplexQR Int)
      (Mat.zeros 3 1) [2]).2.1.mpr ⟨⟨rfl, rfl⟩, by decide⟩⟩

/-! ## Batch deletion: index test and processing order -/

/-- The sorted indices of the batch deletion are a rearrangement of the indices
given. -/
theorem sortDescending_perm (j : List Int) : ((sortDescending j).map Prod.fst).Perm j := by
  have h1 := (List.perm_insertionSort (fun a b : Int × Nat => b.1 ≤ a.1)
    (j.zip (List.range j.length))).map Prod.fst
  have h2 : (j.zip (List.range j.length)).map Prod.fst = j := by
    apply List.map_fst_zip
    simp
  rw [h2] at h1
  exact h1

/-- The sorted indices of the batch deletion are in descending order. -/
theorem sortDescending_sorted (j : List Int) :
    ((sortDescending j).map Prod.fst).Pairwise (fun a b => b ≤ a) := by
  haveI : IsTotal (Int × Nat) (fun a b => b.1 ≤ a.1) := ⟨fun a b => le_total b.1 a.1⟩
  haveI : IsTrans (Int × Nat) (fun a b => b.1 ≤ a.1) := ⟨fun a b c h1 h2 => le_trans h2 h1⟩
  have h := List.sorted_insertionSort (fun a b : Int × Nat => b.1 ≤ a.1)
    (j.zip (List.range j.length))
  rw [List.pairwise_map]
  exact h

/-- In a descending list the first element is above every element. -/
theorem descending_le_first (l : List Int) (hs : l.Pairwise (fun a b => b ≤ a)) (x : Int)
    (hx : x ∈ l) : x ≤ l.getD 0 0 := by
  cases l with
  | nil => cases hx
  | cons a t =>
    simp only [List.getD_cons_zero]
    rcases List.mem_cons.mp hx with h | h
    · exact le_of_eq h
    · exact (List.pairwise_cons.mp hs).1 x h

/-- In a descending list every element is above the last one. -/
theorem descending_last_le (l : List Int) (hs : l.Pairwise (fun a b => b ≤ a)) (x : Int)
    (hx : x ∈ l) : l.getD (l.length - 1) 0 ≤ x := by
  induction l with
  | nil => cases hx
  | cons a t ih =>
    cases t with
    | nil =>
      simp only [List.mem_singleton] at hx
      simp [hx]
    | cons b t2 =>
      have hp := List.pairwise_cons.mp hs
      have hlast := last_mem_of_ne_nil (b :: t2) (by simp)
      simp only [List.length_cons, Nat.add_sub_cancel, List.getD_cons_succ] at hlast ih ⊢
      rcases List.mem_cons.mp hx with h | h
      · rw [h]; exact hp.1 _ hlast
      · exact ih hp.2 h

/-- The test `js(0) > n-1 || js(nj-1) < 0` on the sorted indices holds exactly when
some index given lies outside `[0, n-1]`. -/
theorem delete_range_test_iff (j : List Int) (n : Int) :
    (((((sortDescending j).map Prod.fst).length : Nat) : Int) > 0 ∧
      (idx ((sortDescending j).map Prod.fst) 0 > n - 1 ∨
        idx ((sortDescending j).map Prod.fst)
          (((((sortDescending j).map Prod.fst).length : Nat) : Int) - 1) < 0)) ↔
    ∃ x ∈ j, x < 0 ∨ x > n - 1 := by
  have hperm := sortDescending_perm j
  have hsort := sortDescending_sorted j
  generalize (sortDescending j).map Prod.fst = js at hperm hsort
  have hlast : ((js.length : Int) - 1).toNat = js.length - 1 := by omega
  simp only [idx, Int.toNat_zero, hlast]
  constructor
  · rintro ⟨hpos, h⟩
    have hne : js ≠ [] := by
      intro h0; rw [h0] at hpos; simp at hpos
    rcases h with h | h
    · refine ⟨js.getD 0 0, hperm.mem_iff.mp ?_, Or.inr h⟩
      cases js with
      | nil => exact absurd rfl hne
      | cons a t => simp
    · exact ⟨_, hperm.mem_iff.mp (last_mem_of_ne_nil js hne), Or.inl h⟩
  · rintro ⟨x, hx, h⟩
    have hx2 : x ∈ js := hperm.mem_iff.mpr hx
    have hpos : (js.length : Int) > 0 := by
      have := List.length_pos_of_mem hx2
      omega
    refine ⟨hpos, ?_⟩
    rcases h with h | h
    · exact Or.inr (lt_of_le_of_lt (descending_last_le js hsort x hx2) h)
    · exact Or.inl (lt_of_lt_of_le h (descending_le_first js hsort x hx2))

/-- Batch delete_col reports a failure exactly when some index lies outside
`[0, n-1]`, and the failure is then "index out of range". -/
theorem delete_col_batch_failure_iff {α : Type} [Zero α] (K : Kernels α)
    (st : ComplexQR α) (j : List Int) :
    ((st.delete_col_batch K j).kind = some .IndexOutOfRange ↔
      ∃ x ∈ j, x < 0 ∨ x > (st.r.cols : Int) - 1) ∧
    ((st.delete_col_batch K j).failure ≠ none ↔
      ∃ x ∈ j, x < 0 ∨ x > (st.r.cols : Int) - 1) := by
  have hr := delete_range_test_iff j (st.r.cols : Int)
  refine ⟨?_, ?_⟩
  · simp only [delete_col_batch, Outcome.kind, dupsFlag_eq_false, Bool.false_eq_true, if_false,
      Mat.columns]
    by_cases hc : ∃ x ∈ j, x < 0 ∨ x > (st.r.cols : Int) - 1
    · rw [if_pos (hr.mpr hc)]
      exact ⟨fun _ => hc, fun _ => rfl⟩
    · rw [if_neg (fun h => hc (hr.mp h))]
      refine ⟨fun h => ?_, fun h => absurd h hc⟩
      split_ifs at h <;> simp at h
  · simp only [delete_col_batch, dupsFlag_eq_false, Bool.false_eq_true, if_false, Mat.columns]
    by_cases hc : ∃ x ∈ j, x < 0 ∨ x > (st.r.cols : Int) - 1
    · rw [if_pos (hr.mpr hc)]
      exact ⟨fun _ => hc, fun _ => by simp⟩
    · rw [if_neg (fun h => hc (hr.mp h))]
      refine ⟨fun h => ?_, fun h => absurd h hc⟩
      split_ifs at h <;> simp at h

/-- C22: on a state whose R has n columns, batch delete_col reports
IndexOutOfRange exactly when at least one index of the list lies outside
[0, n − 1] (the test of the largest and the smallest sorted index is equivalent
to a test of every index) and reports no other failure; the empty list succeeds
and leaves the state unchanged. -/
theorem delete_col_batch_index_check {α : Type} [Zero α] (K : Kernels α)
    (st : ComplexQR α) (j : List Int) :
    ((st.delete_col_batch K j).kind = some .IndexOutOfRange ↔
      ∃ x ∈ j, x < 0 ∨ x > (st.r.cols : Int) - 1) ∧
    ((st.delete_col_batch K j).failure ≠ none ↔
      ∃ x ∈ j, x < 0 ∨ x > (st.r.cols : Int) - 1) ∧
    ((st.delete_col_batch K []).failure = none ∧ (st.delete_col_batch K []).state = st) :=
  ⟨(delete_col_batch_failure_iff K st j).1, (delete_col_batch_failure_iff K st j).2,
    rfl, rfl⟩

theorem delete_col_batch_index_check_witness :
    ((⟨Mat.zeros 3 3, Mat.zeros 3 3⟩ : ComplexQR Int).delete_col_batch sampleKernels
      [0, 3]).kind = some .IndexOutOfRange :=
  (delete_col_batch_index_check sampleKernels (⟨Mat.zeros 3 3, Mat.zeros 3 3⟩ : ComplexQR Int)
    [0, 3]).1.mpr ⟨3, by decide, by decide⟩

/-- A strictly decreasing list of integers bounded by `b` has its `i`-th element
bounded by `b - i`. -/
theorem strictly_decreasing_bound (l : List Int) (hs : l.Pairwise (fun a b => b < a))
    (b : Int) (hb : ∀ x ∈ l, x ≤ b) (i : Nat) (hi : i < l.length) :
    l.getD i 0 ≤ b - (i : Int) := by
  induction l generalizing b i with
  | nil => simp at hi
  | cons a t ih =>
    have hp := List.pairwise_cons.mp hs
    cases i with
    | zero =>
      simp only [List.getD_cons_zero, Nat.cast_zero, sub_zero]
      exact hb a (List.mem_cons_self _ _)
    | succ i =>
      simp only [List.getD_cons_succ]
      have h1 := ih hp.2 (a - 1) (fun x hx => by have := hp.1 x hx; omega) i
        (by simpa using hi)
      have h2 := hb a (List.mem_cons_self _ _)
      push_cast
      omega

/-- An element read inside the bounds of a list is a member of the list. -/
theorem getD_mem_of_lt (l : List Int) (i : Nat) (hi : i < l.length) : l.getD i 0 ∈ l := by
  induction l generalizing i with
  | nil => simp at hi
  | cons a t ih =>
    cases i with
    | zero => simp
    | succ i =>
      simp only [List.getD_cons_succ]
      exact List.mem_cons_of_mem _ (ih i (by simpa using hi))

/-- C25: for pairwise-distinct indices all in [0, n − 1], batch delete_col reports
no failure and leaves the state obtained by calling the deletion kernel `zqrdec`
for i = 0, 1, ..., nj − 1 in turn, each call on the buffers left by the one
before, with column count n − i and the 1-based index js(i) + 1, and then
resizing; the list js of the indices so passed is a rearrangement of the
indices given, is strictly decreasing, and satisfies 0 ≤ js(i) ≤ n − 1 − i, so
that js(i) is a valid column index of the R with n − i columns of step i. -/
theorem delete_col_batch_order {α : Type} [Zero α] (K : Kernels α) (st : ComplexQR α)
    (j : List Int) (hd : j.Nodup) (hr : ∀ x ∈ j, 0 ≤ x ∧ x ≤ (st.r.cols : Int) - 1) :
    (st.delete_col_batch K j).failure = none ∧
    ∃ (js : List Int) (st1 : ComplexQR α),
      js.Perm j ∧
      js.Pairwise (fun a b => b < a) ∧
      (∀ i : Nat, i < js.length →
        0 ≤ idx js (i : Int) ∧ idx js (i : Int) ≤ (st.r.cols : Int) - 1 - (i : Int)) ∧
      st1 = forLoop 0 (js.length : Int) (fun i (s : ComplexQR α) =>
        (⟨s.q.withData (K.zqrdec st.q.rows ((st.r.cols : Int) - i)
              (if (st.q.cols : Int) = st.q.rows then (st.q.cols : Int) else (st.q.cols : Int) - i)
              s.q s.r (idx js i + 1)).1,
          s.r.withData (K.zqrdec st.q.rows ((st.r.cols : Int) - i)
              (if (st.q.cols : Int) = st.q.rows then (st.q.cols : Int) else (st.q.cols : Int) - i)
              s.q s.r (idx js i + 1)).2⟩ : ComplexQR α)) st ∧
      (st.delete_col_batch K j).state =
        (if (js.length : Int) > 0 then
          (if (st.q.cols : Int) < st.q.rows then
            ⟨st1.q.resize st.q.rows ((st.q.cols : Int) - js.length) 0,
              st1.r.resize ((st.q.cols : Int) - js.length) ((st.r.cols : Int) - js.length) 0⟩
           else ⟨st1.q, st1.r.resize st.q.cols ((st.r.cols : Int) - js.length) 0⟩)
         else st) := by
  have hperm := sortDescending_perm j
  have hsort := sortDescending_sorted j
  have hfail : (st.delete_col_batch K j).failure = none := by
    by_contra hne
    obtain ⟨x, hx, hx2⟩ := (delete_col_batch_failure_iff K st j).2.mp hne
    have := hr x hx
    omega
  have hrange : ¬ (((((sortDescending j).map Prod.fst).length : Nat) : Int) > 0 ∧
      (idx ((sortDescending j).map Prod.fst) 0 > (st.r.cols : Int) - 1 ∨
        idx ((sortDescending j).map Prod.fst)
          (((((sortDescending j).map Prod.fst).length : Nat) : Int) - 1) < 0)) := by
    intro h
    obtain ⟨x, hx, hx2⟩ := (delete_range_test_iff j (st.r.cols : Int)).mp h
    have := hr x hx
    omega
  refine ⟨hfail, (sortDescending j).map Prod.fst, _, hperm, ?_, ?_, rfl, ?_⟩
  · have hnd : ((sortDescending j).map Prod.fst).Nodup := hperm.nodup_iff.mpr hd
    exact (hsort.and hnd).imp (fun h => lt_of_le_of_ne h.1 (fun e => h.2 e.symm))
  · generalize (sortDescending j).map Prod.fst = js at hperm hsort
    have hnd : js.Nodup := hperm.nodup_iff.mpr hd
    have hstrict : js.Pairwise (fun a b => b < a) :=
      (hsort.and hnd).imp (fun h => lt_of_le_of_ne h.1 (fun e => h.2 e.symm))
    intro i hi
    simp only [idx, Int.toNat_ofNat]
    constructor
    · exact (hr _ (hperm.mem_iff.mp (getD_mem_of_lt js i hi))).1
    · exact strictly_decreasing_bound js hstrict _
        (fun x hx => (hr x (hperm.mem_iff.mp hx)).2) i hi
  · simp only [delete_col_batch, dupsFlag_eq_false, Bool.false_eq_true, if_false, Mat.columns,
      if_neg hrange]
    by_cases hpos : ((((sortDescending j).map Prod.fst).length : Nat) : Int) > 0
    · rw [if_pos hpos, if_pos hpos]
      by_cases hk : (st.q.cols : Int) < (st.q.rows : Int)
      · rw [if_pos hk, if_pos hk]
      · rw [if_neg hk, if_neg hk]
    · rw [if_neg hpos, if_neg hpos]

theorem delete_col_batch_order_witness :
    ((⟨Mat.zeros 3 3, Mat.zeros 3 3⟩ : ComplexQR Int).delete_col_batch sampleKernels
      [0, 2]).failure = none :=
  (delete_col_batch_order sampleKernels (⟨Mat.zeros 3 3, Mat.zeros 3 3⟩ : ComplexQR Int)
    [0, 2] (by decide) (by decide)).1

/-! ## The duplicate flag -/

/-- C26: the duplicate flag computed by the pairwise-comparison loop is false for
every index list, repeated indices included, so neither batch insert_col nor
batch delete_col ever reports "duplicate index detected". -/
theorem duplicate_check_is_vacuous {α : Type} [Zero α] (K : Kernels α) (st : ComplexQR α)
    (u : Mat α) (j js : List Int) :
    dupsFlag js = false ∧
    (st.insert_col_batch K u j).failure ≠ some .qrinsert_duplicate_index ∧
    (st.delete_col_batch K j).failure ≠ some .qrinsert_duplicate_index ∧
    (st.insert_col_batch K u j).kind ≠ some .DuplicateIndexError ∧
    (st.delete_col_batch K j).kind ≠ some .DuplicateIndexError := by
  refine ⟨dupsFlag_eq_false js, ?_, ?_, ?_, ?_⟩
  · simp only [insert_col_batch, dupsFlag_eq_false, Bool.false_eq_true, if_false]
    split_ifs <;> simp
  · simp only [delete_col_batch, dupsFlag_eq_false, Bool.false_eq_true, if_false]
    split_ifs <;> simp
  · simp only [insert_col_batch, Outcome.kind, dupsFlag_eq_false, Bool.false_eq_true, if_false]
    split_ifs <;> simp [Msg.kind]
  · simp only [delete_col_batch, Outcome.kind, dupsFlag_eq_false, Bool.false_eq_true, if_false]
    split_ifs <;> simp [Msg.kind]

/-! ## Batch insertion of several columns -/

/-- C21: batch insert_col evaluated with a 3×2 matrix U and the distinct in-range
positions [0, 1].  On the state Q 3×3, R 3×3 and on the state Q 3×1, R 1×1 the
call reports "qrinsert: dimensions mismatch" and leaves Q and R as they were:
the test `u.length () != m` compares the number of elements of U, 6, with
m = 3. -/
theorem insert_col_batch_two_columns :
    ((⟨Mat.zeros 3 3, Mat.zeros 3 3⟩ : ComplexQR Int).insert_col_batch sampleKernels
        (Mat.zeros 3 2) [0, 1]).failure = some .qrinsert_dimensions_mismatch ∧
    ((⟨Mat.zeros 3 3, Mat.zeros 3 3⟩ : ComplexQR Int).insert_col_batch sampleKernels
        (Mat.zeros 3 2) [0, 1]).state.r.cols = 3 ∧
    ((⟨Mat.zeros 3 1, Mat.zeros 1 1⟩ : ComplexQR Int).insert_col_batch sampleKernels
        (Mat.zeros 3 2) [0, 1]).failure = some .qrinsert_dimensions_mismatch ∧
    ((⟨Mat.zeros 3 1, Mat.zeros 1 1⟩ : ComplexQR Int).insert_col_batch sampleKernels
        (Mat.zeros 3 2) [0, 1]).state.q.cols = 1 ∧
    (Mat.zeros 3 2).length = 6 := by
  refine ⟨?_, ?_, ?_, ?_, ?_⟩ <;> decide

/-! ## Row operators after a raw factorization -/

/-- Members left by `factorize` in raw mode for a non-empty matrix: Q is the
empty matrix and R has the shape of `a`. -/
theorem factorize_raw_shapes {α : Type} [Zero α] [Mul α] (K : Kernels α) (a : Mat α)
    (hm : 1 ≤ a.rows) (hn : 1 ≤ a.cols) :
    (factorize K a .raw).state.q = Mat.empty ∧
    (factorize K a .raw).state.r.rows = a.rows ∧
    (factorize K a .raw).state.r.cols = a.cols := by
  have h1 : ¬ ((a.rows : Int) = 0 ∨ (a.cols : Int) = 0) := by omega
  simp only [factorize, init, if_neg h1, if_true]
  by_cases hgt : (a.rows : Int) > (a.cols : Int)
  · simp only [if_pos hgt]
    exact ⟨trivial, by simp [Mat.resize], by simp [Mat.resize]⟩
  · simp only [if_neg hgt]
    refine ⟨trivial, ?_, ?_⟩
    · rw [(scaleBelowDiagonal_shape _ _ _ _).1]
      simp only [Mat.withData]
      split_ifs with h
      · exact absurd h.1 hgt
      · rfl
    · rw [(scaleBelowDiagonal_shape _ _ _ _).2]
      simp only [Mat.withData]
      split_ifs with h
      · exact absurd h.1 hgt
      · rfl

/-- C24, as stated, fails: after factorize in raw mode of a 3×2 matrix the row
operators do not fail.  insert_row with a row of length 2 at index 0 reports no
failure and resizes Q from 0×0 to 4×4 and R to 4×2; delete_row(0) reports no
failure and resizes R to 2×2. -/
theorem row_ops_after_raw_proceed :
    ((factorize sampleKernels (Mat.ofRows 3 2 [[1, 0], [0, 1], [1, 1]])
      .raw).state.insert_row sampleKernels [7, 8] 0).failure = none ∧
    ((factorize sampleKernels (Mat.ofRows 3 2 [[1, 0], [0, 1], [1, 1]])
      .raw).state.insert_row sampleKernels [7, 8] 0).state.q.rows = 4 ∧
    ((factorize sampleKernels (Mat.ofRows 3 2 [[1, 0], [0, 1], [1, 1]])
      .raw).state.insert_row sampleKernels [7, 8] 0).state.r.rows = 4 ∧
    ((factorize sampleKernels (Mat.ofRows 3 2 [[1, 0], [0, 1], [1, 1]])
      .raw).state.delete_row sampleKernels 0).failure = none ∧
    ((factorize sampleKernels (Mat.ofRows 3 2 [[1, 0], [0, 1], [1, 1]])
      .raw).state.delete_row sampleKernels 0).state.r.rows = 2 := by
  refine ⟨?_, ?_, ?_, ?_, ?_⟩ <;> decide

/-- C24, amended: on the factorization produced by factorize in raw mode of an m×n
matrix (m, n ≥ 1) Q is the empty 0×0 matrix, which passes the squareness test, so
the row operators fail exactly when their argument tests fail.  insert_row(u, j)
reports no failure exactly when length(u) = n and 0 ≤ j ≤ m, and then leaves
the state obtained by resizing Q to (m+1)×(m+1) and R to (m+1)×n and calling
`zqrinr` on them with j + 1 and u.  delete_row(j) reports no failure exactly
when 0 ≤ j ≤ m − 1, and then leaves the state obtained by calling `zqrder` on
Q and R with j + 1 and resizing Q to (m−1)×(m−1) and R to (m−1)×n. -/
theorem row_ops_after_raw {α : Type} [Zero α] [Mul α] (K : Kernels α) (a : Mat α)
    (u : List α) (j : Int) (hm : 1 ≤ a.rows) (hn : 1 ≤ a.cols) :
    (factorize K a .raw).state.q.is_square = true ∧
    (((factorize K a .raw).state.insert_row K u j).failure = none ↔
      (u.length = a.cols ∧ 0 ≤ j ∧ j ≤ (a.rows : Int))) ∧
    (((factorize K a .raw).state.insert_row K u j).failure = none →
      ((factorize K a .raw).state.insert_row K u j).state =
        ⟨((factorize K a .raw).state.q.resize ((a.rows : Int) + 1) ((a.rows : Int) + 1) 0).withData
            (K.zqrinr a.rows a.cols
              ((factorize K a .raw).state.q.resize ((a.rows : Int) + 1) ((a.rows : Int) + 1) 0)
              ((factorize K a .raw).state.r.resize ((a.rows : Int) + 1) a.cols 0) (j + 1) u).1,
          ((factorize K a .raw).state.r.resize ((a.rows : Int) + 1) a.cols 0).withData
            (K.zqrinr a.rows a.cols
              ((factorize K a .raw).state.q.resize ((a.rows : Int) + 1) ((a.rows : Int) + 1) 0)
              ((factorize K a .raw).state.r.resize ((a.rows : Int) + 1) a.cols 0) (j + 1) u).2⟩ ∧
      ((factorize K a .raw).state.insert_row K u j).state.q.rows = a.rows + 1 ∧
      ((factorize K a .raw).state.insert_row K u j).state.q.cols = a.rows + 1 ∧
      ((factorize K a .raw).state.insert_row K u j).state.r.rows = a.rows + 1 ∧
      ((factorize K a .raw).state.insert_row K u j).state.r.cols = a.cols) ∧
    (((factorize K a .raw).state.delete_row K j).failure = none ↔
      (0 ≤ j ∧ j ≤ (a.rows : Int) - 1)) ∧
    (((factorize K a .raw).state.delete_row K j).failure = none →
      ((factorize K a .raw).state.delete_row K j).state =
        ⟨((factorize K a .raw).state.q.withData
            (K.zqrder a.rows a.cols (factorize K a .raw).state.q (factorize K a .raw).state.r
              (j + 1)).1).resize ((a.rows : Int) - 1) ((a.rows : Int) - 1) 0,
          ((factorize K a .raw).state.r.withData
            (K.zqrder a.rows a.cols (factorize K a .raw).state.q (factorize K a .raw).state.r
              (j + 1)).2).resize ((a.rows : Int) - 1) a.cols 0⟩ ∧
      ((factorize K a .raw).state.delete_row K j).state.q.rows = a.rows - 1 ∧
      ((factorize K a .raw).state.delete_row K j).state.q.cols = a.rows - 1 ∧
      ((factorize K a .raw).state.delete_row K j).state.r.rows = a.rows - 1 ∧
      ((factorize K a .raw).state.delete_row K j).state.r.cols = a.cols) := by
  obtain ⟨hq, hrr, hrc⟩ := factorize_raw_shapes K a hm hn
  generalize (factorize K a .raw).state = F at hq hrr hrc
  have hsq : F.q.is_square = true := by rw [hq]; rfl
  refine ⟨hsq, ?_, ?_, ?_, ?_⟩
  · simp only [insert_row, Mat.columns, hsq, Bool.not_true, Bool.false_eq_true, false_or,
      hrr, hrc, ne_eq, Nat.cast_inj]
    by_cases hu : u.length = a.cols
    · by_cases hj : j < 0 ∨ j > (a.rows : Int)
      · rw [if_neg (not_not.mpr hu), if_pos hj]
        simp only [reduceCtorEq, false_iff]
        intro h; omega
      · rw [if_neg (not_not.mpr hu), if_neg hj]
        simp only [true_iff]
        exact ⟨hu, by omega, by omega⟩
    · rw [if_pos hu]
      simp only [reduceCtorEq, false_iff]
      intro h; exact hu h.1
  · simp only [insert_row, Mat.columns, hsq, Bool.not_true, Bool.false_eq_true, false_or,
      hrr, hrc, ne_eq, Nat.cast_inj]
    by_cases hu : u.length = a.cols
    · by_cases hj : j < 0 ∨ j > (a.rows : Int)
      · rw [if_neg (not_not.mpr hu), if_pos hj]
        intro h; exact absurd h (by simp)
      · rw [if_neg (not_not.mpr hu), if_neg hj]
        intro _
        refine ⟨rfl, ?_⟩
        simp only [Mat.withData, Mat.resize]
        refine ⟨?_, ?_, ?_, ?_⟩ <;> omega
    · rw [if_pos hu]
      intro h; exact absurd h (by simp)
  · simp only [delete_row, Mat.columns, hsq, Bool.not_true, Bool.false_eq_true, if_false, hrr]
    by_cases hj : j < 0 ∨ j > (a.rows : Int) - 1
    · rw [if_pos hj]
      simp only [reduceCtorEq, false_iff]
      intro h; omega
    · rw [if_neg hj]
      simp only [true_iff]
      omega
  · simp only [delete_row, Mat.columns, hsq, Bool.not_true, Bool.false_eq_true, if_false, hrr,
      hrc]
    by_cases hj : j < 0 ∨ j > (a.rows : Int) - 1
    · rw [if_pos hj]
      intro h; exact absurd h (by simp)
    · rw [if_neg hj]
      intro _
      refine ⟨rfl, ?_⟩
      simp only [Mat.withData, Mat.resize]
      refine ⟨?_, ?_, ?_, ?_⟩ <;> omega

theorem row_ops_after_raw_witness :
    ((factorize sampleKernels (Mat.ofRows 3 2 [[1, 0], [0, 1], [1, 1]])
      .raw).state.insert_row sampleKernels [7, 8] 3).state.q.rows = 4 ∧
    ((factorize sampleKernels (Mat.ofRows 3 2 [[1, 0], [0, 1], [1, 1]])
      .raw).state.insert_row sampleKernels [7, 8] 3).state.r.cols = 2 ∧
    ((factorize sampleKernels (Mat.ofRows 3 2 [[1, 0], [0, 1], [1, 1]])
      .raw).state.delete_row sampleKernels 2).state.r.rows = 2 :=
  have h := (row_ops_after_raw sampleKernels (Mat.ofRows 3 2 [[1, 0], [0, 1], [1, 1]])
    [7, 8] 3 (by decide) (by decide)).2.2.1 (by decide)
  have h2 := (row_ops_after_raw sampleKernels (Mat.ofRows 3 2 [[1, 0], [0, 1], [1, 1]])
    [7, 8] 2 (by decide) (by decide)).2.2.2.2 (by decide)
  ⟨h.2.1, h.2.2.2.2, h2.2.2.2.1⟩

/-! ## Shapes along sequences of calls -/

/-- A loop of kernel calls keeps the four dimensions. -/
theorem kernelLoop_shapes {α : Type} (lo hi : Int) (f g : Int → ComplexQR α → Data α)
    (s : ComplexQR α) :
    (forLoop lo hi (fun i t => (⟨t.q.withData (f i t), t.r.withData (g i t)⟩ : ComplexQR α))
        s).q.rows = s.q.rows ∧
    (forLoop lo hi (fun i t => (⟨t.q.withData (f i t), t.r.withData (g i t)⟩ : ComplexQR α))
        s).q.cols = s.q.cols ∧
    (forLoop lo hi (fun i t => (⟨t.q.withData (f i t), t.r.withData (g i t)⟩ : ComplexQR α))
        s).r.rows = s.r.rows ∧
    (forLoop lo hi (fun i t => (⟨t.q.withData (f i t), t.r.withData (g i t)⟩ : ComplexQR α))
        s).r.cols = s.r.cols :=
  forLoop_invariant
    (fun t : ComplexQR α => t.q.rows = s.q.rows ∧ t.q.cols = s.q.cols ∧
      t.r.rows = s.r.rows ∧ t.r.cols = s.r.cols) _ _ _ _ ⟨rfl, rfl, rfl, rfl⟩
    (fun _ _ ht => ht)

/-- Shapes after a call of an operator that does not resize. -/
theorem unresized_shapes {α : Type} [Zero α] (K : Kernels α) (st : ComplexQR α)
    (u v : List α) (U V : Mat α) (i j : Int) :
    ((st.update K u v).state.q.rows = st.q.rows ∧ (st.update K u v).state.q.cols = st.q.cols ∧
      (st.update K u v).state.r.rows = st.r.rows ∧
      (st.update K u v).state.r.cols = st.r.cols) ∧
    ((st.update_batch K U V).state.q.rows = st.q.rows ∧
      (st.update_batch K U V).state.q.cols = st.q.cols ∧
      (st.update_batch K U V).state.r.rows = st.r.rows ∧
      (st.update_batch K U V).state.r.cols = st.r.cols) ∧
    ((st.shift_cols K i j).state.q.rows = st.q.rows ∧
      (st.shift_cols K i j).state.q.cols = st.q.cols ∧
      (st.shift_cols K i j).state.r.rows = st.r.rows ∧
      (st.shift_cols K i j).state.r.cols = st.r.cols) := by
  refine ⟨?_, ?_, ?_⟩
  · simp only [update]
    split_ifs <;> exact ⟨rfl, rfl, rfl, rfl⟩
  · simp only [update_batch]
    split_ifs
    · exact kernelLoop_shapes _ _ _ _ st
    · exact ⟨rfl, rfl, rfl, rfl⟩
  · simp only [shift_cols]
    split_ifs <;> exact ⟨rfl, rfl, rfl, rfl⟩

/-- Shapes after a single insert_col that reports no failure. -/
theorem insert_col_success_shapes {α : Type} [Zero α] (K : Kernels α) (st : ComplexQR α)
    (u : List α) (j : Int) (hok : (st.insert_col K u j).failure = none) :
    (st.insert_col K u j).state.q.rows = st.q.rows ∧
    (st.insert_col K u j).state.q.cols =
      (if st.q.cols < st.q.rows then st.q.cols + 1 else st.q.cols) ∧
    (st.insert_col K u j).state.r.rows =
      (if st.q.cols < st.q.rows then st.q.cols + 1 else st.q.cols) ∧
    (st.insert_col K u j).state.r.cols = st.r.cols + 1 := by
  simp only [insert_col, Mat.columns] at hok ⊢
  by_cases h1 : ((u.length : Nat) : Int) ≠ (st.q.rows : Int)
  · rw [if_pos h1] at hok; exact absurd hok (by simp)
  · rw [if_neg h1] at hok ⊢
    by_cases h2 : j < 0 ∨ j > (st.r.cols : Int)
    · rw [if_pos h2] at hok; exact absurd hok (by simp)
    · rw [if_neg h2]
      by_cases h3 : st.q.cols < st.q.rows
      · have h3i : ((st.q.cols : Nat) : Int) < (st.q.rows : Int) := by exact_mod_cast h3
        simp only [if_pos h3i, if_pos h3, Mat.withData, Mat.resize]
        refine ⟨?_, ?_, ?_, ?_⟩ <;> omega
      · have h3i : ¬ ((st.q.cols : Nat) : Int) < (st.q.rows : Int) := by
          intro h; exact h3 (by exact_mod_cast h)
        simp only [if_neg h3i, if_neg h3, Mat.withData, Mat.resize]
        refine ⟨?_, ?_, ?_, ?_⟩ <;> trivial

/-- Shapes after a batch insert_col that reports no failure. -/
theorem insert_col_batch_success_shapes {α : Type} [Zero α] (K : Kernels α)
    (st : ComplexQR α) (u : Mat α) (j : List Int)
    (hok : (st.insert_col_batch K u j).failure = none) :
    (st.insert_col_batch K u j).state.q.rows = st.q.rows ∧
    (st.insert_col_batch K u j).state.q.cols =
      (if st.q.cols < st.q.rows ∧ 0 < j.length then min (st.q.cols + j.length) st.q.rows
       else st.q.cols) ∧
    (st.insert_col_batch K u j).state.r.rows =
      (if 0 < j.length then
        (if st.q.cols < st.q.rows then min (st.q.cols + j.length) st.q.rows else st.q.cols)
       else st.r.rows) ∧
    (st.insert_col_batch K u j).state.r.cols = st.r.cols + j.length := by
  have hlen : ((sortAscending j).map Prod.fst).length = j.length :=
    (sortAscending_perm j).length_eq
  simp only [insert_col_batch, dupsFlag_eq_false, Bool.false_eq_true, if_false, Mat.columns,
    hlen] at hok ⊢
  by_cases h1 : ((u.length : Nat) : Int) ≠ (st.q.rows : Int) ∨
      ((u.cols : Nat) : Int) ≠ ((j.length : Nat) : Int)
  · rw [if_pos h1] at hok; exact absurd hok (by simp)
  rw [if_neg h1] at hok ⊢
  by_cases h2 : ((j.length : Nat) : Int) > 0 ∧
      (idx ((sortAscending j).map Prod.fst) 0 < 0 ∨
        idx ((sortAscending j).map Prod.fst) (((j.length : Nat) : Int) - 1) > (st.r.cols : Int))
  · rw [if_pos h2] at hok; exact absurd hok (by simp)
  rw [if_neg h2] at hok ⊢
  by_cases h3 : ((j.length : Nat) : Int) > 0
  · rw [if_pos h3]
    have hpos : 0 < j.length := by omega
    by_cases h4 : st.q.cols < st.q.rows
    · have h4i : ((st.q.cols : Nat) : Int) < (st.q.rows : Int) := by exact_mod_cast h4
      simp only [if_pos h4i]
      obtain ⟨a1, a2, a3, a4⟩ := kernelLoop_shapes 0 (j.length : Int)
        (fun i s => (K.zqrinc st.q.rows (st.r.cols + i)
          (min (min ((st.q.cols : Int) + j.length) st.q.rows) (st.q.cols + i)) s.q s.r
          (idx ((sortAscending j).map Prod.fst) i + 1)
          (u.column (idxN ((sortAscending j).map Prod.snd) i))).1)
        (fun i s => (K.zqrinc st.q.rows (st.r.cols + i)
          (min (min ((st.q.cols : Int) + j.length) st.q.rows) (st.q.cols + i)) s.q s.r
          (idx ((sortAscending j).map Prod.fst) i + 1)
          (u.column (idxN ((sortAscending j).map Prod.snd) i))).2)
        (⟨st.q.resize st.q.rows (min ((st.q.cols : Int) + j.length) st.q.rows) 0,
          st.r.resize (min ((st.q.cols : Int) + j.length) st.q.rows)
            ((st.r.cols : Int) + j.length) 0⟩ : ComplexQR α)
      rw [a1, a2, a3, a4]
      simp only [Mat.resize, if_pos hpos, if_pos h4, if_pos (And.intro h4 hpos)]
      refine ⟨?_, ?_, ?_, ?_⟩ <;> first | trivial | omega
    · have h4i : ¬ ((st.q.cols : Nat) : Int) < (st.q.rows : Int) := by
        intro h; exact h4 (by exact_mod_cast h)
      simp only [if_neg h4i]
      obtain ⟨a1, a2, a3, a4⟩ := kernelLoop_shapes 0 (j.length : Int)
        (fun i s => (K.zqrinc st.q.rows (st.r.cols + i)
          (min (min ((st.q.cols : Int) + j.length) st.q.rows) (st.q.cols + i)) s.q s.r
          (idx ((sortAscending j).map Prod.fst) i + 1)
          (u.column (idxN ((sortAscending j).map Prod.snd) i))).1)
        (fun i s => (K.zqrinc st.q.rows (st.r.cols + i)
          (min (min ((st.q.cols : Int) + j.length) st.q.rows) (st.q.cols + i)) s.q s.r
          (idx ((sortAscending j).map Prod.fst) i + 1)
          (u.column (idxN ((sortAscending j).map Prod.snd) i))).2)
        (⟨st.q, st.r.resize (st.q.cols : Int) ((st.r.cols : Int) + j.length) 0⟩ : ComplexQR α)
      rw [a1, a2, a3, a4]
      simp only [Mat.resize, if_pos hpos, if_neg h4, if_neg (fun h : _ ∧ _ => h4 h.1)]
      refine ⟨?_, ?_, ?_, ?_⟩ <;> trivial
  · rw [if_neg h3]
    have h0 : j.length = 0 := by omega
    simp [h0]

/-- Shapes after a single delete_col that reports no failure; R had a column. -/
theorem delete_col_success_shapes {α : Type} [Zero α] (K : Kernels α) (st : ComplexQR α)
    (j : Int) (hok : (st.delete_col K j).failure = none) :
    1 ≤ st.r.cols ∧
    (st.delete_col K j).state.q.rows = st.q.rows ∧
    (st.delete_col K j).state.q.cols =
      (if st.r.rows < st.q.rows then st.r.rows - 1 else st.q.cols) ∧
    (st.delete_col K j).state.r.rows =
      (if st.r.rows < st.q.rows then st.r.rows - 1 else st.r.rows) ∧
    (st.delete_col K j).state.r.cols = st.r.cols - 1 := by
  simp only [delete_col, Mat.columns] at hok ⊢
  by_cases h1 : j < 0 ∨ j > (st.r.cols : Int) - 1
  · rw [if_pos h1] at hok; exact absurd hok (by simp)
  · rw [if_neg h1]
    by_cases h3 : st.r.rows < st.q.rows
    · have h3i : ((st.r.rows : Nat) : Int) < (st.q.rows : Int) := by exact_mod_cast h3
      simp only [if_pos h3i, if_pos h3, Mat.withData, Mat.resize]
      refine ⟨?_, ?_, ?_, ?_, ?_⟩ <;> omega
    · have h3i : ¬ ((st.r.rows : Nat) : Int) < (st.q.rows : Int) := by
        intro h; exact h3 (by exact_mod_cast h)
      simp only [if_neg h3i, if_neg h3, Mat.withData, Mat.resize]
      refine ⟨?_, ?_, ?_, ?_, ?_⟩ <;> first | trivial | omega

/-- A batch delete_col of pairwise-distinct indices that reports no failure
deletes at most as many columns as R has. -/
theorem delete_col_batch_count_le {α : Type} [Zero α] (K : Kernels α) (st : ComplexQR α)
    (j : List Int) (hd : j.Nodup) (hok : (st.delete_col_batch K j).failure = none) :
    j.length ≤ st.r.cols := by
  have hall : ∀ x ∈ j, 0 ≤ x ∧ x ≤ (st.r.cols : Int) - 1 := by
    intro x hx
    by_contra hn
    exact (delete_col_batch_failure_iff K st j).2.mpr ⟨x, hx, by omega⟩ hok
  have hperm := sortDescending_perm j
  have hsort := sortDescending_sorted j
  generalize (sortDescending j).map Prod.fst = js at hperm hsort
  have hnd : js.Nodup := hperm.nodup_iff.mpr hd
  have hstrict : js.Pairwise (fun a b => b < a) :=
    (hsort.and hnd).imp (fun h => lt_of_le_of_ne h.1 (fun e => h.2 e.symm))
  have hlen : js.length = j.length := hperm.length_eq
  rcases Nat.eq_zero_or_pos j.length with h0 | hpos
  · omega
  · have hi : j.length - 1 < js.length := by omega
    have h1 := strictly_decreasing_bound js hstrict ((st.r.cols : Int) - 1)
      (fun x hx => (hall x (hperm.mem_iff.mp hx)).2) (j.length - 1) hi
    have h2 := (hall _ (hperm.mem_iff.mp (getD_mem_of_lt js (j.length - 1) hi))).1
    omega

/-- Shapes after a batch delete_col that reports no failure. -/
theorem delete_col_batch_success_shapes {α : Type} [Zero α] (K : Kernels α)
    (st : ComplexQR α) (j : List Int) (hok : (st.delete_col_batch K j).failure = none) :
    (st.delete_col_batch K j).state.q.rows = st.q.rows ∧
    (st.delete_col_batch K j).state.q.cols =
      (if st.q.cols < st.q.rows then st.q.cols - j.length else st.q.cols) ∧
    (st.delete_col_batch K j).state.r.rows =
      (if 0 < j.length then
        (if st.q.cols < st.q.rows then st.q.cols - j.length else st.q.cols)
       else st.r.rows) ∧
    (st.delete_col_batch K j).state.r.cols = st.r.cols - j.length := by
  have hlen : ((sortDescending j).map Prod.fst).length = j.length :=
    (sortDescending_perm j).length_eq
  simp only [delete_col_batch, dupsFlag_eq_false, Bool.false_eq_true, if_false, Mat.columns,
    hlen] at hok ⊢
  by_cases h2 : ((j.length : Nat) : Int) > 0 ∧
      (idx ((sortDescending j).map Prod.fst) 0 > (st.r.cols : Int) - 1 ∨
        idx ((sortDescending j).map Prod.fst) (((j.length : Nat) : Int) - 1) < 0)
  · rw [if_pos h2] at hok; exact absurd hok (by simp)
  rw [if_neg h2] at hok ⊢
  by_cases h3 : ((j.length : Nat) : Int) > 0
  · rw [if_pos h3]
    have hpos : 0 < j.length := by omega
    obtain ⟨a1, a2, a3, a4⟩ := kernelLoop_shapes 0 (j.length : Int)
      (fun i s => (K.zqrdec st.q.rows (st.r.cols - i)
        (if (st.q.cols : Int) = st.q.rows then (st.q.cols : Int) else st.q.cols - i) s.q s.r
        (idx ((sortDescending j).map Prod.fst) i + 1)).1)
      (fun i s => (K.zqrdec st.q.rows (st.r.cols - i)
        (if (st.q.cols : Int) = st.q.rows then (st.q.cols : Int) else st.q.cols - i) s.q s.r
        (idx ((sortDescending j).map Prod.fst) i + 1)).2) st
    by_cases h4 : st.q.cols < st.q.rows
    · have h4i : ((st.q.cols : Nat) : Int) < (st.q.rows : Int) := by exact_mod_cast h4
      simp only [if_pos h4i, Mat.resize, if_pos hpos, if_pos h4]
      refine ⟨?_, ?_, ?_, ?_⟩ <;> omega
    · have h4i : ¬ ((st.q.cols : Nat) : Int) < (st.q.rows : Int) := by
        intro h; exact h4 (by exact_mod_cast h)
      simp only [if_neg h4i, Mat.resize, if_pos hpos, if_neg h4]
      rw [a1, a2]
      refine ⟨?_, ?_, ?_, ?_⟩ <;> first | trivial | omega
  · rw [if_neg h3]
    have h0 : j.length = 0 := by omega
    simp [h0]

/-- Shapes after an insert_row that reports no failure; Q was square. -/
theorem insert_row_success_shapes {α : Type} [Zero α] (K : Kernels α) (st : ComplexQR α)
    (u : List α) (j : Int) (hok : (st.insert_row K u j).failure = none) :
    st.q.rows = st.q.cols ∧
    (st.insert_row K u j).state.q.rows = st.r.rows + 1 ∧
    (st.insert_row K u j).state.q.cols = st.r.rows + 1 ∧
    (st.insert_row K u j).state.r.rows = st.r.rows + 1 ∧
    (st.insert_row K u j).state.r.cols = st.r.cols := by
  simp only [insert_row, Mat.columns] at hok ⊢
  by_cases h1 : (!st.q.is_square) = true ∨ ((u.length : Nat) : Int) ≠ (st.r.cols : Int)
  · rw [if_pos h1] at hok; exact absurd hok (by simp)
  · rw [if_neg h1] at hok ⊢
    have hsq : st.q.rows = st.q.cols := by
      by_contra hne
      apply h1; left
      simp [Mat.is_square, hne]
    by_cases h2 : j < 0 ∨ j > (st.r.rows : Int)
    · rw [if_pos h2] at hok; exact absurd hok (by simp)
    · rw [if_neg h2]
      simp only [Mat.withData, Mat.resize]
      refine ⟨hsq, ?_, ?_, ?_, ?_⟩ <;> omega

/-- Shapes after a delete_row that reports no failure; Q was square and R had a
row. -/
theorem delete_row_success_shapes {α : Type} [Zero α] (K : Kernels α) (st : ComplexQR α)
    (j : Int) (hok : (st.delete_row K j).failure = none) :
    st.q.rows = st.q.cols ∧ 1 ≤ st.r.rows ∧
    (st.delete_row K j).state.q.rows = st.r.rows - 1 ∧
    (st.delete_row K j).state.q.cols = st.r.rows - 1 ∧
    (st.delete_row K j).state.r.rows = st.r.rows - 1 ∧
    (st.delete_row K j).state.r.cols = st.r.cols := by
  simp only [delete_row, Mat.columns] at hok ⊢
  by_cases h1 : (!st.q.is_square) = true
  · rw [if_pos h1] at hok; exact absurd hok (by simp)
  · rw [if_neg h1] at hok ⊢
    have hsq : st.q.rows = st.q.cols := by
      by_contra hne
      apply h1
      simp [Mat.is_square, hne]
    by_cases h2 : j < 0 ∨ j > (st.r.rows : Int) - 1
    · rw [if_pos h2] at hok; exact absurd hok (by simp)
    · rw [if_neg h2]
      simp only [Mat.withData, Mat.resize]
      refine ⟨hsq, ?_, ?_, ?_, ?_, ?_⟩ <;> omega

/-- A call that succeeds reports no failure. -/
theorem succeeds_failure {α : Type} [Zero α] (K : Kernels α) (st : ComplexQR α) (c : Call α)
    (h : st.succeeds K c = true) : (st.run K c).failure = none := by
  simp only [ComplexQR.succeeds, Bool.and_eq_true, Option.isNone_iff_eq_none] at h
  exact h.1

/-- A property kept by every successful call holds after a successful sequence. -/
theorem runOps_invariant {α : Type} [Zero α] (K : Kernels α) (P : ComplexQR α → Prop)
    (hstep : ∀ st c, P st → st.succeeds K c = true → P (st.run K c).state)
    (cs : List (Call α)) (st0 st1 : ComplexQR α) (h0 : P st0)
    (hrun : st0.runOps K cs = some st1) : P st1 := by
  induction cs generalizing st0 with
  | nil =>
    simp only [runOps, Option.some.injEq] at hrun
    rw [← hrun]; exact h0
  | cons c cs ih =>
    simp only [runOps] at hrun
    by_cases hs : st0.succeeds K c = true
    · rw [if_pos hs] at hrun
      exact ih _ (hstep st0 c h0 hs) hrun
    · rw [if_neg hs] at hrun
      exact absurd hrun (by simp)

/-- One call that reports no failure keeps `cols(Q) = rows(R)` and keeps
`cols(Q) ≤ rows(Q)`. -/
theorem run_step_consistency {α : Type} [Zero α] (K : Kernels α) (st : ComplexQR α)
    (c : Call α) (hok : (st.run K c).failure = none) :
    (st.q.cols = st.r.rows → (st.run K c).state.q.cols = (st.run K c).state.r.rows) ∧
    (st.q.cols ≤ st.q.rows → (st.run K c).state.q.cols ≤ (st.run K c).state.q.rows) := by
  cases c with
  | update u v =>
    obtain ⟨a1, a2, a3, a4⟩ := (unresized_shapes K st u v Mat.empty Mat.empty 0 0).1
    simp only [ComplexQR.run]
    rw [a1, a2, a3]
    exact ⟨id, id⟩
  | update_batch u v =>
    obtain ⟨a1, a2, a3, a4⟩ := (unresized_shapes K st [] [] u v 0 0).2.1
    simp only [ComplexQR.run]
    rw [a1, a2, a3]
    exact ⟨id, id⟩
  | shift_cols i j =>
    obtain ⟨a1, a2, a3, a4⟩ := (unresized_shapes K st [] [] Mat.empty Mat.empty i j).2.2
    simp only [ComplexQR.run]
    rw [a1, a2, a3]
    exact ⟨id, id⟩
  | insert_col u j =>
    simp only [ComplexQR.run] at hok ⊢
    obtain ⟨a1, a2, a3, a4⟩ := insert_col_success_shapes K st u j hok
    rw [a1, a2, a3]
    constructor <;> intro h <;> split_ifs <;> omega
  | insert_col_batch u j =>
    simp only [ComplexQR.run] at hok ⊢
    obtain ⟨a1, a2, a3, a4⟩ := insert_col_batch_success_shapes K st u j hok
    rw [a1, a2, a3]
    constructor <;> intro h <;> split_ifs <;> omega
  | delete_col j =>
    simp only [ComplexQR.run] at hok ⊢
    obtain ⟨a0, a1, a2, a3, a4⟩ := delete_col_success_shapes K st j hok
    rw [a1, a2, a3]
    constructor <;> intro h <;> split_ifs <;> omega
  | delete_col_batch j =>
    simp only [ComplexQR.run] at hok ⊢
    obtain ⟨a1, a2, a3, a4⟩ := delete_col_batch_success_shapes K st j hok
    rw [a1, a2, a3]
    constructor <;> intro h <;> split_ifs <;> omega
  | insert_row u j =>
    simp only [ComplexQR.run] at hok ⊢
    obtain ⟨a0, a1, a2, a3, a4⟩ := insert_row_success_shapes K st u j hok
    rw [a1, a2, a3]
    exact ⟨fun _ => rfl, fun _ => le_refl _⟩
  | delete_row j =>
    simp only [ComplexQR.run] at hok ⊢
    obtain ⟨a0, a00, a1, a2, a3, a4⟩ := delete_row_success_shapes K st j hok
    rw [a1, a2, a3]
    exact ⟨fun _ => rfl, fun _ => le_refl _⟩

/-- C23: along every finite sequence of successful calls of update operators the
shapes stay consistent: if cols(Q) = rows(R) holds at the start it holds at the
end, and so does cols(Q) ≤ rows(Q); cols(Q) = rows(R) holds at the start for a
factorization made by factorize in full or economy mode (m, n ≥ 1) and for one
made by the direct (Q, R) constructor. -/
theorem shapes_stay_consistent {α : Type} [Zero α] [Mul α] (K : Kernels α)
    (st0 st1 : ComplexQR α) (cs : List (Call α)) (hrun : st0.runOps K cs = some st1) :
    (st0.q.cols = st0.r.rows → st1.q.cols = st1.r.rows) ∧
    (st0.q.cols ≤ st0.q.rows → st1.q.cols ≤ st1.q.rows) ∧
    (∀ (a : Mat α) (t : QRType), 1 ≤ a.rows → 1 ≤ a.cols → t ≠ .raw →
      (factorize K a t).state.q.cols = (factorize K a t).state.r.rows ∧
      (factorize K a t).state.q.cols ≤ (factorize K a t).state.q.rows) ∧
    (∀ q_arg r_arg : Mat α, (ofQR q_arg r_arg).failure = none →
      (ofQR q_arg r_arg).state.q.cols = (ofQR q_arg r_arg).state.r.rows) := by
  refine ⟨?_, ?_, ?_, ?_⟩
  · intro h0
    exact runOps_invariant K (fun s => s.q.cols = s.r.rows)
      (fun st c hP hs => (run_step_consistency K st c (succeeds_failure K st c hs)).1 hP)
      cs st0 st1 h0 hrun
  · intro h0
    exact runOps_invariant K (fun s => s.q.cols ≤ s.q.rows)
      (fun st c hP hs => (run_step_consistency K st c (succeeds_failure K st c hs)).2 hP)
      cs st0 st1 h0 hrun
  · intro a t hm hn ht
    obtain ⟨_, h1, h2, h3, _⟩ := factorize_shapes K a t hm hn ht
    rw [h1, h2, h3]
    cases t with
    | std => simp
    | raw => exact absurd rfl ht
    | economy =>
      simp only [if_true, true_and]
      constructor <;> split_ifs <;> omega
  · intro q_arg r_arg hok
    simp only [ofQR, Mat.columns] at hok ⊢
    by_cases h : q_arg.cols ≠ r_arg.rows
    · rw [if_pos h] at hok; exact absurd hok (by simp)
    · rw [if_neg h]; exact not_not.mp h

theorem shapes_stay_consistent_witness :
    ∃ st1 : ComplexQR Int,
      (⟨Mat.zeros 3 2, Mat.zeros 2 2⟩ : ComplexQR Int).runOps sampleKernels
        [.insert_col [1, 2, 3] 1, .delete_col_batch [0, 2], .shift_cols 0 0] = some st1 ∧
      st1.q.cols = st1.r.rows ∧ st1.q.cols ≤ st1.q.rows :=
  ⟨_, rfl,
    (shapes_stay_consistent sampleKernels (⟨Mat.zeros 3 2, Mat.zeros 2 2⟩ : ComplexQR Int) _
      [.insert_col [1, 2, 3] 1, .delete_col_batch [0, 2], .shift_cols 0 0] rfl).1 rfl,
    (shapes_stay_consistent sampleKernels (⟨Mat.zeros 3 2, Mat.zeros 2 2⟩ : ComplexQR Int) _
      [.insert_col [1, 2, 3] 1, .delete_col_batch [0, 2], .shift_cols 0 0] rfl).2.1
      (by decide)⟩

/-! ## States reachable from a full or economy factorization -/

/-- One call with pairwise-distinct indices that reports no failure, made on a
state with `cols(Q) = rows(R)` in which Q is square or has as many columns as R
and fewer than it has rows, leads to such a state again and asks `resize` for no
negative dimension. -/
theorem run_step_square_or_economy {α : Type} [Zero α] (K : Kernels α) (st : ComplexQR α)
    (c : Call α) (hd : c.distinctIndices = true) (hok : (st.run K c).failure = none)
    (h1 : st.q.cols = st.r.rows)
    (h3 : st.q.cols = st.q.rows ∨ (st.q.cols = st.r.cols ∧ st.q.cols < st.q.rows)) :
    (st.run K c).state.q.cols = (st.run K c).state.r.rows ∧
    ((st.run K c).state.q.cols = (st.run K c).state.q.rows ∨
      ((st.run K c).state.q.cols = (st.run K c).state.r.cols ∧
        (st.run K c).state.q.cols < (st.run K c).state.q.rows)) ∧
    ∀ d ∈ st.resizeRequests K c, 0 ≤ d := by
  have hreq : ∀ l : List Int, (∀ d ∈ l, 0 ≤ d) →
      ∀ d ∈ (if (st.run K c).failure ≠ none then [] else l), 0 ≤ d := by
    intro l hl
    rw [if_neg (not_not.mpr hok)]
    exact hl
  cases c with
  | update u v =>
    obtain ⟨a1, a2, a3, a4⟩ := (unresized_shapes K st u v Mat.empty Mat.empty 0 0).1
    simp only [ComplexQR.run] at a1 a2 a3 a4 ⊢
    rw [a1, a2, a3, a4]
    exact ⟨h1, h3, hreq [] (by simp)⟩
  | update_batch u v =>
    obtain ⟨a1, a2, a3, a4⟩ := (unresized_shapes K st [] [] u v 0 0).2.1
    simp only [ComplexQR.run] at a1 a2 a3 a4 ⊢
    rw [a1, a2, a3, a4]
    exact ⟨h1, h3, hreq [] (by simp)⟩
  | shift_cols i j =>
    obtain ⟨a1, a2, a3, a4⟩ := (unresized_shapes K st [] [] Mat.empty Mat.empty i j).2.2
    simp only [ComplexQR.run] at a1 a2 a3 a4 ⊢
    rw [a1, a2, a3, a4]
    exact ⟨h1, h3, hreq [] (by simp)⟩
  | insert_col u j =>
    refine ⟨?_, ?_, hreq _ ?_⟩
    · simp only [ComplexQR.run] at hok ⊢
      obtain ⟨a1, a2, a3, a4⟩ := insert_col_success_shapes K st u j hok
      rw [a2, a3]
    · simp only [ComplexQR.run] at hok ⊢
      obtain ⟨a1, a2, a3, a4⟩ := insert_col_success_shapes K st u j hok
      rw [a1, a2, a4]
      split_ifs <;> omega
    · simp only [Mat.columns]
      intro d hd
      split_ifs at hd <;>
        simp only [List.mem_cons, List.mem_singleton, List.not_mem_nil, or_false] at hd <;>
        omega
  | insert_col_batch u j =>
    refine ⟨?_, ?_, hreq _ ?_⟩
    · simp only [ComplexQR.run] at hok ⊢
      obtain ⟨a1, a2, a3, a4⟩ := insert_col_batch_success_shapes K st u j hok
      rw [a2, a3]
      split_ifs <;> omega
    · simp only [ComplexQR.run] at hok ⊢
      obtain ⟨a1, a2, a3, a4⟩ := insert_col_batch_success_shapes K st u j hok
      rw [a1, a2, a4]
      split_ifs <;> omega
    · simp only [Mat.columns]
      intro d hd
      split_ifs at hd <;>
        simp only [List.mem_cons, List.mem_singleton, List.not_mem_nil, or_false] at hd <;>
        omega
  | delete_col j =>
    simp only [ComplexQR.run] at hok
    obtain ⟨a0, a1, a2, a3, a4⟩ := delete_col_success_shapes K st j hok
    refine ⟨?_, ?_, hreq _ ?_⟩
    · simp only [ComplexQR.run]
      rw [a2, a3]
      split_ifs <;> omega
    · simp only [ComplexQR.run]
      rw [a1, a2, a4]
      split_ifs <;> omega
    · simp only [Mat.columns]
      intro d hd
      split_ifs at hd <;>
        simp only [List.mem_cons, List.mem_singleton, List.not_mem_nil, or_false] at hd <;>
        omega
  | delete_col_batch j =>
    simp only [ComplexQR.run] at hok
    have hnd : j.Nodup := by simpa [Call.distinctIndices] using hd
    have hcount := delete_col_batch_count_le K st j hnd hok
    obtain ⟨a1, a2, a3, a4⟩ := delete_col_batch_success_shapes K st j hok
    refine ⟨?_, ?_, hreq _ ?_⟩
    · simp only [ComplexQR.run]
      rw [a2, a3]
      split_ifs <;> omega
    · simp only [ComplexQR.run]
      rw [a1, a2, a4]
      split_ifs <;> omega
    · simp only [Mat.columns]
      intro d hd
      split_ifs at hd <;>
        simp only [List.mem_cons, List.mem_singleton, List.not_mem_nil, or_false] at hd <;>
        omega
  | insert_row u j =>
    simp only [ComplexQR.run] at hok
    obtain ⟨a0, a1, a2, a3, a4⟩ := insert_row_success_shapes K st u j hok
    refine ⟨?_, ?_, hreq _ ?_⟩
    · simp only [ComplexQR.run]
      rw [a2, a3]
    · simp only [ComplexQR.run]
      rw [a1, a2]
      exact Or.inl rfl
    · simp only [Mat.columns]
      intro d hd
      simp only [List.mem_cons, List.mem_singleton, List.not_mem_nil, or_false] at hd
      omega
  | delete_row j =>
    simp only [ComplexQR.run] at hok
    obtain ⟨a0, a00, a1, a2, a3, a4⟩ := delete_row_success_shapes K st j hok
    refine ⟨?_, ?_, hreq _ ?_⟩
    · simp only [ComplexQR.run]
      rw [a2, a3]
    · simp only [ComplexQR.run]
      rw [a1, a2]
      exact Or.inl rfl
    · simp only [Mat.columns]
      intro d hd
      simp only [List.mem_cons, List.mem_singleton, List.not_mem_nil, or_false] at hd
      omega

/-- A property kept by every successful call with pairwise-distinct indices holds
after a successful sequence of such calls. -/
theorem runOps_invariant_distinct {α : Type} [Zero α] (K : Kernels α)
    (P : ComplexQR α → Prop)
    (hstep : ∀ st c, P st → c.distinctIndices = true → st.succeeds K c = true →
      P (st.run K c).state)
    (cs : List (Call α)) (hdist : cs.all Call.distinctIndices = true)
    (st0 st1 : ComplexQR α) (h0 : P st0) (hrun : st0.runOps K cs = some st1) : P st1 := by
  induction cs generalizing st0 with
  | nil =>
    simp only [runOps, Option.some.injEq] at hrun
    rw [← hrun]; exact h0
  | cons c cs ih =>
    simp only [List.all_cons, Bool.and_eq_true] at hdist
    simp only [runOps] at hrun
    by_cases hs : st0.succeeds K c = true
    · rw [if_pos hs] at hrun
      exact ih hdist.2 _ (hstep st0 c h0 hdist.1 hs) hrun
    · rw [if_neg hs] at hrun
      exact absurd hrun (by simp)

/-- C27: in every state reached from factorize in full or economy mode (m, n ≥ 1)
by a sequence of successful calls whose index lists are pairwise distinct,
either Q is square (k = m) or k = n with k < m; consequently every further call
with pairwise-distinct indices that reports no failure asks `resize` only for
non-negative dimensions; in particular a single delete_col has n − 1 ≥ 0 and
k − 1 ≥ 0 where it resizes Q, and a batch delete_col of nj columns has
n − nj ≥ 0 and k − nj ≥ 0 where it resizes Q. -/
theorem reachable_square_or_economy {α : Type} [Zero α] [Mul α] (K : Kernels α)
    (a : Mat α) (t : QRType) (hm : 1 ≤ a.rows) (hn : 1 ≤ a.cols) (ht : t ≠ .raw)
    (cs : List (Call α)) (hdist : cs.all Call.distinctIndices = true) (st1 : ComplexQR α)
    (hrun : (factorize K a t).state.runOps K cs = some st1) :
    (st1.q.cols = st1.q.rows ∨ (st1.q.cols = st1.r.cols ∧ st1.q.cols < st1.q.rows)) ∧
    (∀ c : Call α, c.distinctIndices = true → (st1.run K c).failure = none →
      ∀ d ∈ st1.resizeRequests K c, 0 ≤ d) ∧
    (∀ j : Int, (st1.delete_col K j).failure = none →
      0 ≤ (st1.r.cols : Int) - 1 ∧ (st1.r.rows < st1.q.rows → 0 ≤ (st1.r.rows : Int) - 1)) ∧
    (∀ j : List Int, j.Nodup → (st1.delete_col_batch K j).failure = none →
      0 ≤ (st1.r.cols : Int) - (j.length : Int) ∧
      (st1.q.cols < st1.q.rows → 0 ≤ (st1.q.cols : Int) - (j.length : Int))) := by
  have hinit : (factorize K a t).state.q.cols = (factorize K a t).state.r.rows ∧
      ((factorize K a t).state.q.cols = (factorize K a t).state.q.rows ∨
        ((factorize K a t).state.q.cols = (factorize K a t).state.r.cols ∧
          (factorize K a t).state.q.cols < (factorize K a t).state.q.rows)) := by
    obtain ⟨_, h1, h2, h3, h4⟩ := factorize_shapes K a t hm hn ht
    rw [h1, h2, h3, h4]
    cases t with
    | std => simp
    | raw => exact absurd rfl ht
    | economy =>
      simp only [if_true, true_and]
      constructor <;> split_ifs <;> omega
  have hinv := runOps_invariant_distinct K
    (fun s : ComplexQR α => s.q.cols = s.r.rows ∧
      (s.q.cols = s.q.rows ∨ (s.q.cols = s.r.cols ∧ s.q.cols < s.q.rows)))
    (fun st c hP hd hs =>
      have h := run_step_square_or_economy K st c hd (succeeds_failure K st c hs) hP.1 hP.2
      ⟨h.1, h.2.1⟩)
    cs hdist _ st1 hinit hrun
  refine ⟨hinv.2, ?_, ?_, ?_⟩
  · intro c hd hok
    exact (run_step_square_or_economy K st1 c hd hok hinv.1 hinv.2).2.2
  · intro j hok
    obtain ⟨a0, _⟩ := delete_col_success_shapes K st1 j hok
    have h1 := hinv.1
    have h2 := hinv.2
    constructor
    · omega
    · intro hlt; omega
  · intro j hnd hok
    have hcount := delete_col_batch_count_le K st1 j hnd hok
    have h2 := hinv.2
    constructor
    · omega
    · intro hlt; omega

theorem reachable_square_or_economy_witness :
    ∃ st1 : ComplexQR Int,
      (factorize sampleKernels (Mat.ofRows 3 2 [[1, 0], [0, 1], [1, 1]]) .economy).state.runOps
        sampleKernels [.insert_col [1, 2, 3] 0, .delete_col_batch [0, 2], .delete_col 0]
        = some st1 ∧
      (st1.q.cols = st1.q.rows ∨ (st1.q.cols = st1.r.cols ∧ st1.q.cols < st1.q.rows)) :=
  ⟨_, rfl,
    (reachable_square_or_economy sampleKernels (Mat.ofRows 3 2 [[1, 0], [0, 1], [1, 1]]) .economy
      (by decide) (by decide) (by decide)
      [.insert_col [1, 2, 3] 0, .delete_col_batch [0, 2], .delete_col 0] (by decide) _ rfl).1⟩

/-! ## Single insert_col and the range of the index type -/

end CmplxQR

namespace Gl2ps

/-! ## `escape_character` -/

/-- Searching a one-character pattern: the head is compared, then the tail
searched. -/
theorem findFrom_single_cons (c x : Char) (s : List Char) (i : Nat) :
    findFrom [c] (x :: s) i = if c = x then some i else findFrom [c] s (i + 1) := by
  simp only [findFrom, List.isPrefixOf, Bool.and_true, beq_iff_eq]

/-- Searching a one-character pattern in the empty tail finds nothing. -/
theorem findFrom_single_nil (c : Char) (i : Nat) : findFrom [c] [] i = none := by
  simp [findFrom, List.isPrefixOf]

/-- The search of `find` at the end of a known prefix. -/
theorem find_append (chr pre rest : List Char) :
    find chr (pre ++ rest) pre.length = findFrom chr rest pre.length := by
  simp [find]

/-- The loop of `escape_character` on a string `pre ++ rest` whose next search
starts at `rest`: with more fuel than `rest` has characters it ends and leaves
`pre` followed by `rest` escaped. -/
theorem escapeLoop_spec (c : Char) (rest : List Char) :
    ∀ (pre : List Char) (fuel : Nat), rest.length < fuel →
      escapeLoop [c] fuel (findFrom [c] rest pre.length) (pre ++ rest)
        = some (pre ++ escaped c rest) := by
  induction rest with
  | nil =>
    intro pre fuel _
    rw [findFrom_single_nil]
    simp [escapeLoop, escaped]
  | cons x t ih =>
    intro pre fuel hf
    rw [findFrom_single_cons]
    by_cases hx : c = x
    · subst hx
      rw [if_pos rfl]
      obtain ⟨f, rfl⟩ : ∃ f, fuel = f + 1 := ⟨fuel - 1, by simp at hf; omega⟩
      have hins : insert (pre ++ c :: t) pre.length [backslash]
          = (pre ++ [backslash, c]) ++ t := by
        simp [insert]
      have hlen : pre.length + 2 = (pre ++ [backslash, c]).length := by simp
      simp only [escapeLoop]
      rw [hins, hlen, find_append]
      rw [ih (pre ++ [backslash, c]) f (by simp at hf; omega)]
      simp [escaped]
    · rw [if_neg hx]
      have hlen : pre.length + 1 = (pre ++ [x]).length := by simp
      have hstr : pre ++ x :: t = (pre ++ [x]) ++ t := by simp
      rw [hlen, hstr, ih (pre ++ [x]) fuel (by simp at hf; omega)]
      have hxc : ¬ x = c := fun h => hx h.symm
      simp [escaped, hxc]

/-- Length of the escaped string. -/
theorem escaped_length (c : Char) (s : List Char) :
    (escaped c s).length = s.length + s.count c := by
  induction s with
  | nil => rfl
  | cons x t ih =>
    by_cases hx : x = c
    · subst hx
      simp only [escaped, if_true, List.length_cons, ih, List.count_cons_self]
      omega
    · have hcx : c ≠ x := fun e => hx e.symm
      simp only [escaped, if_neg hx, List.length_cons, ih]
      rw [List.count_cons_of_ne hcx]
      omega

/-- A string without the character is its own escaped form. -/
theorem escaped_of_not_mem (c : Char) (s : List Char) (h : c ∉ s) : escaped c s = s := by
  induction s with
  | nil => rfl
  | cons x t ih =>
    have hx : ¬ x = c := fun e => h (by simp [e])
    have ht : c ∉ t := fun e => h (List.mem_cons_of_mem _ e)
    simp only [escaped, if_neg hx, ih ht]

/-- Dropping the backslashes from the escaped string and from the string itself
leaves the same characters in the same order. -/
theorem escaped_filter (c : Char) (s : List Char) :
    (escaped c s).filter (fun x => decide (x ≠ backslash))
      = s.filter (fun x => decide (x ≠ backslash)) := by
  induction s with
  | nil => rfl
  | cons x t ih =>
    by_cases hx : x = c
    · simp only [escaped, if_pos hx]
      rw [List.filter_cons_of_neg (by simp)]
      by_cases hb : x = backslash
      · rw [List.filter_cons_of_neg (by simp [hb]), List.filter_cons_of_neg (by simp [hb]), ih]
      · rw [List.filter_cons_of_pos (by simp [hb]), List.filter_cons_of_pos (by simp [hb]), ih]
    · simp only [escaped, if_neg hx]
      by_cases hb : x = backslash
      · rw [List.filter_cons_of_neg (by simp [hb]), List.filter_cons_of_neg (by simp [hb]), ih]
      · rw [List.filter_cons_of_pos (by simp [hb]), List.filter_cons_of_pos (by simp [hb]), ih]

/-- In the escaped string every occurrence of the character, the character not
being the backslash, stands directly after a backslash. -/
theorem escaped_preceded (c : Char) (hc : c ≠ backslash) (s : List Char) :
    ∀ i : Nat, (escaped c s)[i]? = some c →
      1 ≤ i ∧ (escaped c s)[i - 1]? = some backslash := by
  induction s with
  | nil => intro i h; simp [escaped] at h
  | cons x t ih =>
    intro i h
    by_cases hx : x = c
    · simp only [escaped, if_pos hx] at h ⊢
      match i, h with
      | 0, h =>
        simp only [List.getElem?_cons_zero, Option.some.injEq] at h
        exact absurd h.symm hc
      | 1, _ => simp
      | k + 2, h =>
        simp only [List.getElem?_cons_succ] at h
        obtain ⟨h1, h2⟩ := ih k h
        refine ⟨by omega, ?_⟩
        obtain ⟨m, rfl⟩ : ∃ m, k = m + 1 := ⟨k - 1, by omega⟩
        simpa using h2
    · simp only [escaped, if_neg hx] at h ⊢
      match i, h with
      | 0, h =>
        simp only [List.getElem?_cons_zero, Option.some.injEq] at h
        exact absurd h hx
      | k + 1, h =>
        simp only [List.getElem?_cons_succ] at h
        obtain ⟨h1, h2⟩ := ih k h
        refine ⟨by omega, ?_⟩
        obtain ⟨m, rfl⟩ : ∃ m, k = m + 1 := ⟨k - 1, by omega⟩
        simpa using h2

/-- C28: for every string s and every one-character string chr other than the
backslash, escape_character(chr, s) terminates (any fuel above the length of s
suffices) and leaves in s the string obtained by inserting one backslash
immediately before each occurrence of chr: its length is |s| plus the number
of occurrences of chr in s, every occurrence of chr in it stands directly after
a backslash, the characters other than backslashes keep their order, and a
string without chr is unchanged. -/
theorem escape_character_spec (c : Char) (hc : c ≠ backslash) (s : List Char) (fuel : Nat)
    (hf : s.length < fuel) :
    escape_character fuel [c] s = some (escaped c s) ∧
    (escaped c s).length = s.length + s.count c ∧
    (∀ i : Nat, (escaped c s)[i]? = some c →
      1 ≤ i ∧ (escaped c s)[i - 1]? = some backslash) ∧
    (escaped c s).filter (fun x => decide (x ≠ backslash))
      = s.filter (fun x => decide (x ≠ backslash)) ∧
    (c ∉ s → escape_character fuel [c] s = some s) := by
  have hmain : escape_character fuel [c] s = some (escaped c s) := by
    have h := escapeLoop_spec c s [] fuel hf
    simp only [List.length_nil, List.nil_append] at h
    simp only [escape_character, find, Nat.zero_le, if_true, List.drop_zero]
    exact h
  refine ⟨hmain, escaped_length c s, escaped_preceded c hc s, escaped_filter c s, ?_⟩
  intro hmem
  rw [hmain, escaped_of_not_mem c s hmem]

theorem escape_character_spec_witness :
    escape_character 5 ['('] ['f', '(', 'x', ')']
      = some (escaped '(' ['f', '(', 'x', ')']) :=
  (escape_character_spec '(' (by decide) ['f', '(', 'x', ')'] 5 (by decide)).1


end Gl2ps
